import Mathlib

/-!
# Verification development for the gyne-clinics-backend RAG pipeline

Shallow embedding of the knowledge-base ingestion / retrieval subsystem:

* `src/services/pdfProcessorService.ts` — `chunkText`, `processPDF`
* `src/services/openaiService.ts` — `generateEmbeddings`, `countTokens`
* `src/services/pineconeService.ts` — `upsertVectors`, `deleteNamespace`
* `src/controller/categoryController.ts` — `uploadKnowledgeBase`,
  `processKnowledgeBaseAsync`, `deleteKnowledgeBase`
* `src/controller/smsController.ts` — `handleChatQuery`, `saveConversation`
* `src/services/ragService.ts` — `generateRAGResponse`, `generateSimpleResponse`
* `src/routes/knowledgeBase.ts` — multer disk-storage filename
* `src/modal/knowledgeBase.ts` — document schema

JavaScript strings are modelled as `String` / `List Char`; JS `Math.ceil(n/4)`
on a length becomes `(n + 3) / 4` on `Nat`; external services (Mongo, OpenAI,
Pinecone, the file system) are explicit oracle parameters, and the Pinecone
index is a list of namespaced records.
-/

/-! ## Generic list helpers (JS string / array primitives) -/

/-- JS regex `\s` on the ASCII range: the whitespace characters recognised by
`String.prototype.trim` and `\s+` that can occur in extracted PDF text. -/
def isWS (c : Char) : Bool :=
  c = ' ' || c = '\t' || c = '\n' || c = '\r' || c = Char.ofNat 11 || c = Char.ofNat 12

/-- JS `str.split(sep)` for a single-character separator, on char lists.
`splitCh sep l` never returns `[]` and `"".split(sep) = [""]`. -/
def splitCh (sep : Char) : List Char → List (List Char)
  | [] => [[]]
  | c :: cs => if c = sep then [] :: splitCh sep cs else (splitCh sep cs).modifyHead (c :: ·)

/-- JS `arr.join(sep)` for a single-character separator. -/
def joinCh (sep : Char) : List (List Char) → List Char
  | [] => []
  | [w] => w
  | w :: ws => w ++ sep :: joinCh sep ws

/-- JS `arr.slice(-n)` for `n ≥ 1`: the last `n` elements (all of them when
`n ≥ length`). -/
def sliceNeg (n : Nat) (l : List α) : List α := l.drop (l.length - n)

/-- Drop leading empty strings from a word list. -/
def dropE (ws : List (List Char)) : List (List Char) := ws.dropWhile (·.isEmpty)

/-- `Array.from(new Set(xs))`: deduplicate keeping first occurrences in order. -/
def dedupFirst [DecidableEq α] (l : List α) : List α :=
  l.foldl (fun acc x => if x ∈ acc then acc else acc ++ [x]) []

/-- The batching loop `for (let i = 0; i < n; i += batchSize)` over
`arr.slice(i, i + batchSize)`, fuel-structured so applications reduce in the
kernel; the fuel is the list length, sufficient whenever `1 ≤ bs`. -/
def batchGo (bs : Nat) : Nat → List α → List (List α)
  | 0, _ => []
  | _, [] => []
  | f + 1, l => l.take bs :: batchGo bs f (l.drop bs)

/-- The consecutive batches of size `bs` issued by the upload / embedding loops. -/
def batchesOf (bs : Nat) (l : List α) : List (List α) := batchGo bs l.length l

/-! ### Lemmas about the helpers -/

theorem splitCh_ne_nil (sep : Char) (l : List Char) : splitCh sep l ≠ [] := by
  induction l with
  | nil => simp [splitCh]
  | cons c cs ih =>
    by_cases h : c = sep <;> simp [splitCh, h]
    cases hs : splitCh sep cs with
    | nil => exact absurd hs ih
    | cons a as => simp [List.modifyHead]

theorem splitCh_append_sep (sep : Char) (u v : List Char) :
    splitCh sep (u ++ sep :: v) = splitCh sep u ++ splitCh sep v := by
  induction u with
  | nil => simp [splitCh]
  | cons c cs ih =>
    by_cases h : c = sep
    · simp [splitCh, h, ih]
    · simp only [List.cons_append, splitCh, h, if_false, List.append_eq]
      rw [ih]
      cases hs : splitCh sep cs with
      | nil => exact absurd hs (splitCh_ne_nil sep cs)
      | cons a as => simp [List.modifyHead]

theorem mem_splitCh_not_sep (sep : Char) (l : List Char) (w : List Char)
    (hw : w ∈ splitCh sep l) : sep ∉ w := by
  induction l generalizing w with
  | nil => simp [splitCh] at hw; simp [hw]
  | cons c cs ih =>
    by_cases h : c = sep
    · simp [splitCh, h] at hw
      rcases hw with hw | hw
      · simp [hw]
      · exact ih w hw
    · simp only [splitCh, h, if_false] at hw
      cases hs : splitCh sep cs with
      | nil => exact absurd hs (splitCh_ne_nil sep cs)
      | cons a as =>
        rw [hs] at hw
        simp [List.modifyHead] at hw
        rcases hw with hw | hw
        · subst hw
          intro hmem
          rcases List.mem_cons.mp hmem with h' | h'
          · exact h h'.symm
          · exact ih a (hs ▸ List.mem_cons_self a as) h'
        · exact ih w (hs ▸ List.mem_cons_of_mem a hw)

theorem splitCh_no_sep (sep : Char) (w : List Char) (hw : sep ∉ w) :
    splitCh sep w = [w] := by
  induction w with
  | nil => simp [splitCh]
  | cons c cs ih =>
    have hc : ¬ c = sep := fun h => hw (h ▸ List.mem_cons_self c cs)
    have hcs : sep ∉ cs := fun h => hw (List.mem_cons_of_mem c h)
    simp [splitCh, hc, ih hcs, List.modifyHead]

theorem splitCh_joinCh (sep : Char) (L : List (List Char)) (hL : L ≠ [])
    (hw : ∀ w ∈ L, sep ∉ w) : splitCh sep (joinCh sep L) = L := by
  induction L with
  | nil => exact absurd rfl hL
  | cons w ws ih =>
    cases ws with
    | nil => simpa [joinCh] using splitCh_no_sep sep w (hw w (by simp))
    | cons w' ws' =>
      have : joinCh sep (w :: w' :: ws') = w ++ sep :: joinCh sep (w' :: ws') := rfl
      rw [this, splitCh_append_sep, splitCh_no_sep sep w (hw w (by simp)),
        ih (by simp) (fun x hx => hw x (List.mem_cons_of_mem w hx))]
      rfl

theorem mem_of_mem_splitCh (sep : Char) (l w : List Char) (hw : w ∈ splitCh sep l)
    (c : Char) (hc : c ∈ w) : c ∈ l := by
  induction l generalizing w with
  | nil => simp [splitCh] at hw; subst hw; simp at hc
  | cons a as ih =>
    by_cases h : a = sep
    · simp [splitCh, h] at hw
      rcases hw with hw | hw
      · subst hw; simp at hc
      · exact List.mem_cons_of_mem a (ih w hw hc)
    · simp only [splitCh, h, if_false] at hw
      cases hs : splitCh sep as with
      | nil => exact absurd hs (splitCh_ne_nil sep as)
      | cons b bs =>
        rw [hs] at hw
        simp [List.modifyHead] at hw
        rcases hw with hw | hw
        · subst hw
          rcases List.mem_cons.mp hc with h' | h'
          · exact h' ▸ List.mem_cons_self a as
          · exact List.mem_cons_of_mem a (ih b (hs ▸ List.mem_cons_self b bs) h')
        · exact List.mem_cons_of_mem a (ih w (hs ▸ List.mem_cons_of_mem b hw) hc)

theorem exists_mem_splitCh (sep : Char) (l : List Char) (c : Char) (hc : c ∈ l)
    (hcs : c ≠ sep) : ∃ w ∈ splitCh sep l, c ∈ w := by
  induction l with
  | nil => simp at hc
  | cons a as ih =>
    by_cases h : a = sep
    · rcases List.mem_cons.mp hc with h' | h'
      · exact absurd (h' ▸ h) hcs
      · rcases ih h' with ⟨w, hw, hcw⟩
        exact ⟨w, by simp [splitCh, h, hw], hcw⟩
    · simp only [splitCh, h, if_false]
      cases hs : splitCh sep as with
      | nil => exact absurd hs (splitCh_ne_nil sep as)
      | cons b bs =>
        rcases List.mem_cons.mp hc with h' | h'
        · exact ⟨a :: b, by simp [List.modifyHead], by simp [h']⟩
        · rcases ih h' with ⟨w, hw, hcw⟩
          rw [hs] at hw
          rcases List.mem_cons.mp hw with hw | hw
          · exact ⟨a :: b, by simp [List.modifyHead], by simp [hw ▸ hcw]⟩
          · exact ⟨w, by simp [List.modifyHead, hw], hcw⟩

theorem exists_append_sliceNeg (n : Nat) (l : List α) :
    ∃ pre, l = pre ++ sliceNeg n l :=
  ⟨l.take (l.length - n), (List.take_append_drop _ l).symm⟩

theorem length_sliceNeg_le (n : Nat) (l : List α) : (sliceNeg n l).length ≤ n := by
  simp only [sliceNeg, List.length_drop]; omega

theorem sliceNeg_ne_nil (n : Nat) (l : List α) (hl : l ≠ []) (hn : 1 ≤ n) :
    sliceNeg n l ≠ [] := by
  have h0 : 0 < l.length := List.length_pos.mpr hl
  have : (sliceNeg n l).length = l.length - (l.length - n) := by
    simp [sliceNeg, List.length_drop]
  intro hcon
  rw [hcon] at this
  simp at this
  omega

theorem getLastD_mem_drop (A : List α) (k : Nat) (d : α) (h : A.drop k ≠ []) :
    A.getLastD d ∈ A.drop k := by
  induction A generalizing k with
  | nil => simp at h
  | cons a as ih =>
    cases k with
    | zero =>
      simp only [List.drop_zero, List.getLastD_cons]
      exact List.getLastD_mem_cons as a
    | succ k' =>
      simp only [List.drop_succ_cons] at h ⊢
      cases as with
      | nil => simp at h
      | cons b bs =>
        have hih := ih k' h
        rw [List.getLastD_cons] at hih
        rw [List.getLastD_cons, List.getLastD_cons]
        exact hih

theorem dropE_ne_nil (ws : List (List Char)) (h : ∃ w ∈ ws, w.isEmpty = false) :
    dropE ws ≠ [] := by
  rcases h with ⟨w, hw, hne⟩
  intro hcon
  have := List.dropWhile_eq_nil_iff.mp hcon w hw
  rw [this] at hne
  exact absurd hne (by simp)

theorem dropE_append_of_ne_nil (A B : List (List Char)) (h : dropE A ≠ []) :
    dropE (A ++ B) = dropE A ++ B := by
  induction A with
  | nil => exact absurd rfl h
  | cons a as ih =>
    by_cases ha : a.isEmpty
    · have hA : dropE (a :: as) = dropE as := by simp [dropE, List.dropWhile_cons, ha]
      rw [hA] at h
      simp only [List.cons_append, dropE, List.dropWhile_cons, ha, if_pos]
      simpa [dropE] using ih h
    · simp [dropE, List.dropWhile_cons, ha]

theorem dropE_append_of_all_empty (A B : List (List Char))
    (h : ∀ a ∈ A, a.isEmpty = true) : dropE (A ++ B) = dropE B := by
  induction A with
  | nil => rfl
  | cons a as ih =>
    simp only [List.cons_append, dropE, List.dropWhile_cons, h a (by simp)]
    exact ih (fun x hx => h x (List.mem_cons_of_mem a hx))

theorem head_dropE_not_empty (l : List (List Char)) (w : List Char)
    (ws : List (List Char)) (h : dropE l = w :: ws) : w.isEmpty = false := by
  induction l with
  | nil => simp [dropE] at h
  | cons a as ih =>
    by_cases ha : a.isEmpty
    · exact ih (by simpa [dropE, List.dropWhile_cons, ha] using h)
    · simp [dropE, List.dropWhile_cons, ha] at h
      rw [← h.1]
      simp [ha]

theorem dropE_idem (l : List (List Char)) : dropE (dropE l) = dropE l := by
  cases h : dropE l with
  | nil => rfl
  | cons w ws =>
    have := head_dropE_not_empty l w ws h
    simp [dropE, List.dropWhile_cons, this]

theorem length_dropE_le (l : List (List Char)) : (dropE l).length ≤ l.length := by
  induction l with
  | nil => simp [dropE]
  | cons a as ih =>
    by_cases ha : a.isEmpty <;> simp [dropE, List.dropWhile_cons, ha] at ih ⊢
    omega

theorem dropE_sliceNeg_dropE (n : Nat) (l : List (List Char)) :
    dropE (sliceNeg n l) = dropE (sliceNeg n (dropE l)) := by
  induction l with
  | nil => rfl
  | cons a as ih =>
    by_cases ha : a.isEmpty
    · have hE : dropE (a :: as) = dropE as := by simp [dropE, List.dropWhile_cons, ha]
      by_cases hn : n ≤ as.length
      · have hsl : sliceNeg n (a :: as) = sliceNeg n as := by
          simp only [sliceNeg, List.length_cons]
          have : as.length + 1 - n = (as.length - n) + 1 := by omega
          rw [this, List.drop_succ_cons]
        rw [hsl, hE, ih]
      · have hsl : sliceNeg n (a :: as) = a :: as := by
          simp only [sliceNeg, List.length_cons]
          have : as.length + 1 - n = 0 := by omega
          rw [this, List.drop_zero]
        have hsl2 : sliceNeg n (dropE as) = dropE as := by
          simp only [sliceNeg]
          have : (dropE as).length - n = 0 := by
            have := length_dropE_le as; omega
          rw [this, List.drop_zero]
        rw [hsl, hE, hsl2, dropE_idem]
    · have hE : dropE (a :: as) = a :: as := by simp [dropE, List.dropWhile_cons, ha]
      rw [hE]

theorem batchGo_join (bs : Nat) (hbs : 1 ≤ bs) :
    ∀ (f : Nat) (l : List α), l.length ≤ f → (batchGo bs f l).flatten = l := by
  intro f
  induction f with
  | zero =>
    intro l hl
    have : l = [] := List.length_eq_zero.mp (Nat.le_zero.mp hl)
    subst this; rfl
  | succ f' ih =>
    intro l hl
    cases l with
    | nil => rfl
    | cons x xs =>
      simp only [batchGo, List.flatten_cons]
      rw [ih _ (by
        simp only [List.length_drop, List.length_cons] at hl ⊢
        omega)]
      exact List.take_append_drop bs (x :: xs)

theorem batchGo_mem_length (bs f : Nat) (l : List α) :
    ∀ b ∈ batchGo bs f l, b.length ≤ bs := by
  induction f generalizing l with
  | zero => simp [batchGo]
  | succ f' ih =>
    intro b hb
    cases l with
    | nil => simp [batchGo] at hb
    | cons x xs =>
      simp only [batchGo] at hb
      rcases List.mem_cons.mp hb with h | h
      · subst h
        exact List.length_take_le bs (x :: xs)
      · exact ih _ b h

theorem zip_append_of_length_eq (a c : List α) (b d : List β)
    (h : a.length = b.length) : (a ++ c).zip (b ++ d) = a.zip b ++ c.zip d := by
  induction a generalizing b with
  | nil =>
    cases b with
    | nil => rfl
    | cons y ys => simp at h
  | cons x xs ih =>
    cases b with
    | nil => simp at h
    | cons y ys =>
      simp only [List.cons_append, List.zip_cons_cons]
      rw [ih ys (by simpa using h)]

theorem batchGo_zip (bs : Nat) (hbs : 1 ≤ bs) (api : List α → List β)
    (hapi : ∀ x, (api x).length = x.length) :
    ∀ (f : Nat) (l : List α), l.length ≤ f →
      l.zip ((batchGo bs f l).map api).flatten =
        ((batchGo bs f l).map (fun b => b.zip (api b))).flatten := by
  intro f
  induction f with
  | zero =>
    intro l hl
    have : l = [] := List.length_eq_zero.mp (Nat.le_zero.mp hl)
    subst this; rfl
  | succ f' ih =>
    intro l hl
    cases l with
    | nil => rfl
    | cons x xs =>
      simp only [batchGo, List.map_cons, List.flatten_cons]
      have hsplit : (x :: xs) = (x :: xs).take bs ++ (x :: xs).drop bs :=
        (List.take_append_drop bs (x :: xs)).symm
      calc (x :: xs).zip (api ((x :: xs).take bs) ++ ((batchGo bs f' ((x :: xs).drop bs)).map api).flatten)
          = ((x :: xs).take bs ++ (x :: xs).drop bs).zip
              (api ((x :: xs).take bs) ++ ((batchGo bs f' ((x :: xs).drop bs)).map api).flatten) := by
            rw [← hsplit]
        _ = ((x :: xs).take bs).zip (api ((x :: xs).take bs)) ++
              ((x :: xs).drop bs).zip ((batchGo bs f' ((x :: xs).drop bs)).map api).flatten := by
            exact zip_append_of_length_eq _ _ _ _ (hapi _).symm
        _ = ((x :: xs).take bs).zip (api ((x :: xs).take bs)) ++
              ((batchGo bs f' ((x :: xs).drop bs)).map (fun b => b.zip (api b))).flatten := by
            rw [ih _ (by
              simp only [List.length_drop, List.length_cons] at hl ⊢
              omega)]

/-! ## Chunker (`src/services/pdfProcessorService.ts` with
`countTokens` from `src/services/openaiService.ts`) -/

/-- `countTokens` (openaiService.ts): `Math.ceil(text.length / 4)`. -/
def countTok (l : List Char) : Nat := (l.length + 3) / 4

/-- One pass of `.replace(/p+/g, rep)`: every maximal run of characters
satisfying `p` becomes the single character `rep`. The boolean flag records
whether the previous character was part of a run. -/
def collapseRuns (p : Char → Bool) (rep : Char) : List Char → Bool → List Char
  | [], _ => []
  | c :: cs, prev =>
    if p c then
      if prev then collapseRuns p rep cs true else rep :: collapseRuns p rep cs true
    else c :: collapseRuns p rep cs false

/-- JS `String.prototype.trim`: strip `isWS` characters from both ends. -/
def trimChars (l : List Char) : List Char :=
  ((l.dropWhile isWS).reverse.dropWhile isWS).reverse

def isNL (c : Char) : Bool := c = '\n'

/-- The text cleaning in `chunkText`:
`text.replace(/\s+/g, " ").replace(/\n+/g, "\n").trim()`. -/
def cleanChars (l : List Char) : List Char :=
  trimChars (collapseRuns isNL '\n' (collapseRuns isWS ' ' l false) false)

/-- Sentence-terminator class `[.!?]` of the sentence-splitting regex. -/
def isTerm (c : Char) : Bool := c = '.' || c = '!' || c = '?'

/-- Global matching of `/[^.!?]+[.!?]+/g`: repeatedly skip characters where no
match can start (terminators), take a maximal nonempty run of non-terminators
then a maximal nonempty run of terminators; stop when the terminator run is
empty (the trailing fragment is not matched, as with the JS regex). Fuel makes
the recursion structural; `l.length + 1` fuel always suffices. -/
def msGo : Nat → List Char → List (List Char)
  | 0, _ => []
  | f + 1, l =>
    let l' := l.dropWhile isTerm
    let a := l'.takeWhile (fun c => isTerm c = false)
    let r := l'.dropWhile (fun c => isTerm c = false)
    let b := r.takeWhile isTerm
    if b = [] then [] else (a ++ b) :: msGo f (r.dropWhile isTerm)

def matchSentences (l : List Char) : List (List Char) := msGo (l.length + 1) l

/-- `cleanedText.match(/[^.!?]+[.!?]+/g) || [cleanedText]` — `match` returns
`null` (here `[]`) when there is no match, in which case the whole cleaned
text is the single unit. -/
def sentencesOf (cleaned : List Char) : List (List Char) :=
  if matchSentences cleaned = [] then [cleaned] else matchSentences cleaned

/-- `TextChunk` (pdfProcessorService.ts), on char lists, instrumented with the
ghost field `srcSentences`: the sentence units the loop appended to this chunk
(excluding the overlap seed). The ghost field does not influence any computed
text/index/tokenCount. -/
structure ChunkI where
  text : List Char
  index : Nat
  tokenCount : Nat
  srcSentences : List (List Char)
deriving DecidableEq, Repr

/-- The mutable state of the `for (const sentence of sentences)` loop:
`chunks`, `currentChunk`, `currentTokenCount`, `chunkIndex` (plus the ghost
assignment accumulator). -/
structure CState where
  chunks : List ChunkI
  cur : List Char
  curTok : Nat
  idx : Nat
  curAsn : List (List Char)
deriving DecidableEq, Repr

/-- One iteration of the sentence loop in `chunkText`. -/
def chunkStep (maxTokens overlap : Nat) (st : CState) (s : List Char) : CState :=
  let sTok := countTok s
  if st.curTok + sTok > maxTokens && st.cur.length > 0 then
    let words := splitCh ' ' st.cur
    let overlapWords := sliceNeg overlap words
    let cur' := joinCh ' ' overlapWords ++ ' ' :: s
    ⟨st.chunks ++ [⟨trimChars st.cur, st.idx, st.curTok, st.curAsn⟩],
      cur', countTok cur', st.idx + 1, [s]⟩
  else
    ⟨st.chunks, st.cur ++ ' ' :: s, st.curTok + sTok, st.idx, st.curAsn ++ [s]⟩

/-- The post-loop `if (currentChunk.trim().length > 0) chunks.push(...)`. -/
def chunkFinish (st : CState) : List ChunkI :=
  if (trimChars st.cur).length > 0 then
    st.chunks ++ [⟨trimChars st.cur, st.idx, st.curTok, st.curAsn⟩]
  else st.chunks

/-- `chunkText` on char lists, with resolved `maxTokens` / `overlap`. -/
def chunkTextCore (chars : List Char) (maxTokens overlap : Nat) : List ChunkI :=
  chunkFinish ((sentencesOf (cleanChars chars)).foldl
    (chunkStep maxTokens overlap) ⟨[], [], 0, 0, []⟩)

/-- `options?.maxTokens || 500` — JS `||` falls back on `undefined` and on the
falsy value `0`. -/
def resolveOpt : Option Nat → Nat → Nat
  | none, d => d
  | some 0, d => d
  | some n, _ => n

structure ChunkOptions where
  maxTokens : Option Nat
  overlap : Option Nat
deriving DecidableEq, Repr

/-- `TextChunk` at the `String` interface of `chunkText`. -/
structure TextChunk where
  text : String
  index : Nat
  tokenCount : Nat
deriving DecidableEq, Repr

/-- `chunkText(text, options)` (pdfProcessorService.ts). -/
def chunkText (text : String) (options : ChunkOptions) : List TextChunk :=
  (chunkTextCore text.data (resolveOpt options.maxTokens 500)
    (resolveOpt options.overlap 50)).map (fun c => ⟨⟨c.text⟩, c.index, c.tokenCount⟩)

/-- The leading overlap of a chunk, computed from the previous chunk's text:
the last `overlap` entries of the previous chunk's `split(" ")` word array
with leading empty-string artifacts removed.  This is exactly the word
sequence the overlap seed `words.slice(-overlap).join(" ")` contributes to the
next chunk's (trimmed) text. -/
def ovOf (overlap : Nat) (prevText : List Char) : List (List Char) :=
  dropE (sliceNeg overlap (splitCh ' ' prevText))

/-! ### Whitespace and trimming lemmas -/

/-- All whitespace characters occurring in a string are plain spaces (true for
every string produced after `replace(/\s+/g, " ")`). -/
def OSW (l : List Char) : Prop := ∀ c ∈ l, isWS c = true → c = ' '

theorem dropWhile_suffix_ex (p : α → Bool) (l : List α) :
    ∃ t, l = t ++ l.dropWhile p := by
  induction l with
  | nil => exact ⟨[], rfl⟩
  | cons c cs ih =>
    by_cases h : p c
    · rcases ih with ⟨t, ht⟩
      exact ⟨c :: t, by simp [List.dropWhile_cons, h]; exact ht⟩
    · exact ⟨[], by simp [List.dropWhile_cons, h]⟩

theorem head_dropWhile_false (p : α → Bool) (l : List α) (c : α) (cs : List α)
    (h : l.dropWhile p = c :: cs) : p c = false := by
  induction l with
  | nil => simp at h
  | cons a as ih =>
    by_cases ha : p a
    · exact ih (by simpa [List.dropWhile_cons, ha] using h)
    · simp [List.dropWhile_cons, ha] at h
      rw [← h.1]
      simpa using ha

theorem getLastD_irrel (l : List α) (hl : l ≠ []) (d₁ d₂ : α) :
    l.getLastD d₁ = l.getLastD d₂ := by
  cases l with
  | nil => exact absurd rfl hl
  | cons x xs => rw [List.getLastD_cons, List.getLastD_cons]

theorem getLastD_append_cons (a : List α) (x : α) (b : List α) (d : α) :
    (a ++ x :: b).getLastD d = (x :: b).getLastD d := by
  induction a with
  | nil => rfl
  | cons y ys ih =>
    rw [List.cons_append, List.getLastD_cons]
    rw [getLastD_irrel (ys ++ x :: b) (by simp) y d]
    exact ih

theorem getLastD_mem (l : List α) (hl : l ≠ []) (d : α) : l.getLastD d ∈ l := by
  have := getLastD_mem_drop l 0 d (by simpa using hl)
  simpa using this

theorem dropWhileWS_ne_nil (l : List Char) (hl : l ≠ [])
    (hg : isWS (l.getLastD ' ') = false) : l.dropWhile isWS ≠ [] := by
  intro hcon
  have hall := List.dropWhile_eq_nil_iff.mp hcon
  have := hall (l.getLastD ' ') (getLastD_mem l hl ' ')
  rw [this] at hg
  exact absurd hg (by simp)

theorem getLastD_dropWhile (p : α → Bool) (l : List α) (d : α)
    (h : l.dropWhile p ≠ []) : (l.dropWhile p).getLastD d = l.getLastD d := by
  rcases dropWhile_suffix_ex p l with ⟨t, ht⟩
  cases hx : l.dropWhile p with
  | nil => exact absurd hx h
  | cons c cs =>
    rw [hx] at ht
    conv_rhs => rw [ht]
    rw [getLastD_append_cons]

theorem trimChars_of_goodEnd (l : List Char) (hl : l ≠ [])
    (hg : isWS (l.getLastD ' ') = false) : trimChars l = l.dropWhile isWS := by
  unfold trimChars
  have hx : l.dropWhile isWS ≠ [] := dropWhileWS_ne_nil l hl hg
  have hlast : isWS ((l.dropWhile isWS).getLastD ' ') = false := by
    rw [getLastD_dropWhile _ _ _ hx]; exact hg
  cases hrev : (l.dropWhile isWS).reverse with
  | nil =>
    exact absurd (by simpa using congrArg List.reverse hrev) hx
  | cons c cs =>
    have hlc : l.dropWhile isWS = cs.reverse ++ [c] := by
      have := congrArg List.reverse hrev
      simpa using this
    have hc : isWS c = false := by
      rw [hlc, getLastD_append_cons] at hlast
      simpa using hlast
    simp [List.dropWhile_cons, hc, hlc]

theorem trimChars_ne_nil (l : List Char) (hl : l ≠ [])
    (hg : isWS (l.getLastD ' ') = false) : trimChars l ≠ [] := by
  rw [trimChars_of_goodEnd l hl hg]
  exact dropWhileWS_ne_nil l hl hg

theorem goodEnd_trimChars (l : List Char) (h : trimChars l ≠ []) :
    isWS ((trimChars l).getLastD ' ') = false := by
  unfold trimChars at h ⊢
  cases hz : ((l.dropWhile isWS).reverse.dropWhile isWS) with
  | nil => rw [hz] at h; simp at h
  | cons c cs =>
    have hc : isWS c = false := head_dropWhile_false isWS _ c cs hz
    rw [List.reverse_cons, getLastD_append_cons]
    simpa using hc

theorem mem_trimChars (l : List Char) (c : Char) (h : c ∈ trimChars l) : c ∈ l := by
  unfold trimChars at h
  rw [List.mem_reverse] at h
  rcases dropWhile_suffix_ex isWS ((l.dropWhile isWS).reverse) with ⟨t, ht⟩
  have h2 : c ∈ (l.dropWhile isWS).reverse := by
    rw [ht]; exact List.mem_append_right t h
  rw [List.mem_reverse] at h2
  rcases dropWhile_suffix_ex isWS l with ⟨t', ht'⟩
  rw [ht']
  exact List.mem_append_right t' h2

theorem mem_collapseRuns (p : Char → Bool) (rep : Char) (l : List Char)
    (flag : Bool) (c : Char) (h : c ∈ collapseRuns p rep l flag) :
    c = rep ∨ (p c = false ∧ c ∈ l) := by
  induction l generalizing flag with
  | nil => simp [collapseRuns] at h
  | cons a as ih =>
    by_cases ha : p a
    · cases flag with
      | true =>
        simp only [collapseRuns, ha, if_pos, if_true] at h
        rcases ih true h with h' | h'
        · exact Or.inl h'
        · exact Or.inr ⟨h'.1, List.mem_cons_of_mem a h'.2⟩
      | false =>
        simp only [collapseRuns, ha, if_pos, if_false] at h
        rcases List.mem_cons.mp h with h' | h'
        · exact Or.inl h'
        · rcases ih true h' with h'' | h''
          · exact Or.inl h''
          · exact Or.inr ⟨h''.1, List.mem_cons_of_mem a h''.2⟩
    · simp only [collapseRuns, ha, if_neg, if_false, Bool.false_eq_true] at h
      rcases List.mem_cons.mp h with h' | h'
      · exact Or.inr ⟨h' ▸ (by simpa using ha), h' ▸ List.mem_cons_self a as⟩
      · rcases ih false h' with h'' | h''
        · exact Or.inl h''
        · exact Or.inr ⟨h''.1, List.mem_cons_of_mem a h''.2⟩

theorem OSW_collapseWS (l : List Char) (flag : Bool) :
    OSW (collapseRuns isWS ' ' l flag) := by
  intro c hc hWS
  rcases mem_collapseRuns isWS ' ' l flag c hc with h | h
  · exact h
  · rw [h.1] at hWS; exact absurd hWS (by simp)

theorem collapseNL_eq_self (m : List Char) (hm : OSW m) (flag : Bool) :
    collapseRuns isNL '\n' m flag = m := by
  induction m generalizing flag with
  | nil => rfl
  | cons a as ih =>
    have hOSWas : OSW as := fun c hc => hm c (List.mem_cons_of_mem a hc)
    by_cases ha : isNL a = true
    · have ha' : a = '\n' := by simpa [isNL] using ha
      have h2 : a = ' ' := hm a (List.mem_cons_self a as) (by rw [ha']; decide)
      rw [ha'] at h2
      exact absurd h2 (by decide)
    · simp only [collapseRuns, Bool.not_eq_true] at ha ⊢
      rw [ha]
      simp only [Bool.false_eq_true, if_false]
      rw [ih hOSWas]

theorem OSW_cleanChars (l : List Char) : OSW (cleanChars l) := by
  intro c hc hWS
  unfold cleanChars at hc
  rw [collapseNL_eq_self _ (OSW_collapseWS l false) false] at hc
  exact OSW_collapseWS l false c (mem_trimChars _ c hc) hWS

/-! ### Sentence matcher lemmas -/

theorem isTerm_not_WS (c : Char) (h : isTerm c = true) : isWS c = false := by
  simp only [isTerm, Bool.or_eq_true, decide_eq_true_eq] at h
  rcases h with (h | h) | h <;> subst h <;> decide

theorem getLastD_append_takeWhile_isTerm (a r : List Char)
    (hbe : r.takeWhile isTerm ≠ []) :
    isTerm ((a ++ r.takeWhile isTerm).getLastD ' ') = true := by
  cases hbc : r.takeWhile isTerm with
  | nil => exact absurd hbc hbe
  | cons x xs =>
    rw [getLastD_append_cons]
    have hmem : (x :: xs).getLastD ' ' ∈ x :: xs :=
      getLastD_mem (x :: xs) (by simp) ' '
    have : (x :: xs).getLastD ' ' ∈ r.takeWhile isTerm := hbc ▸ hmem
    exact List.mem_takeWhile_imp this

theorem msGo_good (f : Nat) (l : List Char) :
    ∀ s ∈ msGo f l, isTerm (s.getLastD ' ') = true := by
  induction f generalizing l with
  | zero => simp [msGo]
  | succ f' ih =>
    intro s hs
    simp only [msGo] at hs
    by_cases hbe :
        ((l.dropWhile isTerm).dropWhile (fun c => isTerm c = false)).takeWhile isTerm = []
    · rw [if_pos hbe] at hs; simp at hs
    · rw [if_neg hbe] at hs
      rcases List.mem_cons.mp hs with h | h
      · subst h
        exact getLastD_append_takeWhile_isTerm _ _ hbe
      · exact ih _ s h

theorem msGo_mem (f : Nat) (l : List Char) :
    ∀ s ∈ msGo f l, ∀ c ∈ s, c ∈ l := by
  induction f generalizing l with
  | zero => simp [msGo]
  | succ f' ih =>
    intro s hs c hc
    simp only [msGo] at hs
    have hml' : ∀ x, x ∈ l.dropWhile isTerm → x ∈ l := by
      intro x hx
      rcases dropWhile_suffix_ex isTerm l with ⟨t, ht⟩
      rw [ht]; exact List.mem_append_right t hx
    have hmr : ∀ x,
        x ∈ (l.dropWhile isTerm).dropWhile (fun c => isTerm c = false) →
        x ∈ l.dropWhile isTerm := by
      intro x hx
      rcases dropWhile_suffix_ex (fun c => isTerm c = false) (l.dropWhile isTerm)
        with ⟨t, ht⟩
      rw [ht]; exact List.mem_append_right t hx
    by_cases hbe :
        ((l.dropWhile isTerm).dropWhile (fun c => isTerm c = false)).takeWhile isTerm = []
    · rw [if_pos hbe] at hs; simp at hs
    · rw [if_neg hbe] at hs
      rcases List.mem_cons.mp hs with h | h
      · subst h
        rcases List.mem_append.mp hc with h' | h'
        · have hcl : c ∈ l.dropWhile isTerm := by
            have := List.takeWhile_append_dropWhile
              (p := fun c => isTerm c = false) (l := l.dropWhile isTerm)
            rw [← this]
            exact List.mem_append_left _ h'
          exact hml' c hcl
        · have hcr : c ∈ (l.dropWhile isTerm).dropWhile (fun c => isTerm c = false) := by
            have := List.takeWhile_append_dropWhile (p := isTerm)
              (l := (l.dropWhile isTerm).dropWhile (fun c => isTerm c = false))
            rw [← this]
            exact List.mem_append_left _ h'
          exact hml' c (hmr c hcr)
      · have hrec := ih _ s h c hc
        rcases dropWhile_suffix_ex isTerm
          ((l.dropWhile isTerm).dropWhile (fun c => isTerm c = false)) with ⟨t, ht⟩
        have hcr : c ∈ (l.dropWhile isTerm).dropWhile (fun c => isTerm c = false) := by
          rw [ht]; exact List.mem_append_right t hrec
        exact hml' c (hmr c hcr)

theorem sentencesOf_ne_nil (cleaned : List Char) : sentencesOf cleaned ≠ [] := by
  unfold sentencesOf
  by_cases h : matchSentences cleaned = []
  · simp [h]
  · simp [h]

theorem sentences_good_osw (chars : List Char) (h : cleanChars chars ≠ []) :
    ∀ s ∈ sentencesOf (cleanChars chars),
      isWS (s.getLastD ' ') = false ∧ OSW s := by
  intro s hs
  unfold sentencesOf at hs
  by_cases hm : matchSentences (cleanChars chars) = []
  · rw [if_pos hm] at hs
    simp at hs
    subst hs
    exact ⟨goodEnd_trimChars _ h, OSW_cleanChars chars⟩
  · rw [if_neg hm] at hs
    constructor
    · exact isTerm_not_WS _ (msGo_good _ _ s hs)
    · intro c hc hWS
      exact OSW_cleanChars chars c (msGo_mem _ _ s hs c hc) hWS

/-! ### `split(" ")` versus `trim()` -/

theorem dropWhile_WS_eq_space (l : List Char) (h : OSW l) :
    l.dropWhile isWS = l.dropWhile (fun c => c = ' ') := by
  induction l with
  | nil => rfl
  | cons c cs ih =>
    have hcs : OSW cs := fun x hx => h x (List.mem_cons_of_mem c hx)
    by_cases hc : isWS c = true
    · have hsp : c = ' ' := h c (List.mem_cons_self c cs) hc
      rw [List.dropWhile_cons, List.dropWhile_cons, if_pos hc, if_pos (by simp [hsp])]
      exact ih hcs
    · have hsp : ¬ (c = ' ') := by
        intro hcon; rw [hcon] at hc; exact hc (by decide)
      rw [List.dropWhile_cons, List.dropWhile_cons,
        if_neg (by simpa using hc), if_neg (by simpa using hsp)]

theorem splitCh_dropSpaces (l : List Char) (hl : l ≠ [])
    (hg : l.getLastD ' ' ≠ ' ') :
    splitCh ' ' (l.dropWhile (fun c => c = ' ')) = dropE (splitCh ' ' l) := by
  induction l with
  | nil => exact absurd rfl hl
  | cons c cs ih =>
    by_cases hc : c = ' '
    · have hcs : cs ≠ [] := by
        intro hcon
        subst hcon
        rw [List.getLastD_cons] at hg
        exact hg (by simp [hc])
      have hgcs : cs.getLastD ' ' ≠ ' ' := by
        rw [List.getLastD_cons, getLastD_irrel cs hcs c ' '] at hg
        exact hg
      rw [List.dropWhile_cons, if_pos (by simp [hc])]
      have hsplit : splitCh ' ' (c :: cs) = [] :: splitCh ' ' cs := by
        simp [splitCh, hc]
      rw [hsplit]
      have : dropE ([] :: splitCh ' ' cs) = dropE (splitCh ' ' cs) := by
        simp [dropE, List.dropWhile_cons]
      rw [this]
      exact ih hcs hgcs
    · rw [List.dropWhile_cons, if_neg (by simpa using hc)]
      have hsplit : splitCh ' ' (c :: cs) =
          (splitCh ' ' cs).modifyHead (c :: ·) := by
        simp [splitCh, hc]
      rw [hsplit]
      cases hs : splitCh ' ' cs with
      | nil => exact absurd hs (splitCh_ne_nil ' ' cs)
      | cons w ws =>
        simp [List.modifyHead, dropE, List.dropWhile_cons]

theorem splitCh_trimChars (l : List Char) (hl : l ≠ []) (hosw : OSW l)
    (hg : isWS (l.getLastD ' ') = false) :
    splitCh ' ' (trimChars l) = dropE (splitCh ' ' l) := by
  rw [trimChars_of_goodEnd l hl hg, dropWhile_WS_eq_space l hosw]
  refine splitCh_dropSpaces l hl ?_
  intro hcon
  rw [hcon] at hg
  exact absurd hg (by decide)

theorem lastWord_ne_nil (l : List Char) (hl : l ≠ [])
    (hg : l.getLastD ' ' ≠ ' ') : (splitCh ' ' l).getLastD [] ≠ [] := by
  induction l with
  | nil => exact absurd rfl hl
  | cons c cs ih =>
    cases hcs : cs with
    | nil =>
      subst hcs
      have hc : ¬ (c = ' ') := by
        rw [List.getLastD_cons] at hg
        simpa using hg
      simp [splitCh, hc, List.modifyHead]
    | cons c' cs' =>
      subst hcs
      have hgcs : (c' :: cs').getLastD ' ' ≠ ' ' := by
        rw [List.getLastD_cons, getLastD_irrel (c' :: cs') (by simp) c ' '] at hg
        exact hg
      have hihcs := ih (by simp) hgcs
      by_cases hc : c = ' '
      · have : splitCh ' ' (c :: c' :: cs') = [] :: splitCh ' ' (c' :: cs') := by
          simp [splitCh, hc]
        rw [this]
        cases hs : splitCh ' ' (c' :: cs') with
        | nil => exact absurd hs (splitCh_ne_nil ' ' _)
        | cons w ws =>
          rw [List.getLastD_cons]
          rw [hs] at hihcs
          rwa [getLastD_irrel (w :: ws) (by simp) [] ([] : List Char)]
      · have : splitCh ' ' (c :: c' :: cs') =
            (splitCh ' ' (c' :: cs')).modifyHead (c :: ·) := by
          simp [splitCh, hc]
        rw [this]
        cases hs : splitCh ' ' (c' :: cs') with
        | nil => exact absurd hs (splitCh_ne_nil ' ' _)
        | cons w ws =>
          rw [hs] at hihcs
          cases ws with
          | nil =>
            simp [List.modifyHead]
          | cons w' ws' =>
            simp only [List.modifyHead]
            rw [List.getLastD_cons] at hihcs ⊢
            rwa [getLastD_irrel (w' :: ws') (by simp) (c :: w) w]

theorem mem_joinCh (sep : Char) (L : List (List Char)) (c : Char)
    (h : c ∈ joinCh sep L) : c = sep ∨ ∃ w ∈ L, c ∈ w := by
  induction L with
  | nil => simp [joinCh] at h
  | cons w ws ih =>
    cases ws with
    | nil =>
      simp only [joinCh] at h
      exact Or.inr ⟨w, by simp, h⟩
    | cons w' ws' =>
      have : joinCh sep (w :: w' :: ws') = w ++ sep :: joinCh sep (w' :: ws') := rfl
      rw [this] at h
      rcases List.mem_append.mp h with h' | h'
      · exact Or.inr ⟨w, by simp, h'⟩
      · rcases List.mem_cons.mp h' with h'' | h''
        · exact Or.inl h''
        · rcases ih h'' with h3 | ⟨x, hx, hcx⟩
          · exact Or.inl h3
          · exact Or.inr ⟨x, List.mem_cons_of_mem w hx, hcx⟩

/-! ### The chunk-loop invariant -/

/-- The overlap relation between consecutive chunk texts: the next chunk's
word array starts with the leading overlap computed from the previous chunk. -/
def OverlapRel (N : Nat) (a b : List Char) : Prop :=
  ∃ rest, splitCh ' ' b = ovOf N a ++ rest

theorem dropE_splitCh_ne (cur : List Char) (hne : cur ≠ [])
    (hg : isWS (cur.getLastD ' ') = false) : dropE (splitCh ' ' cur) ≠ [] := by
  have hg' : cur.getLastD ' ' ≠ ' ' := by
    intro hcon; rw [hcon] at hg; exact absurd hg (by decide)
  have hlw : (splitCh ' ' cur).getLastD [] ≠ [] := lastWord_ne_nil cur hne hg'
  refine dropE_ne_nil _ ⟨(splitCh ' ' cur).getLastD [], ?_, ?_⟩
  · exact getLastD_mem _ (splitCh_ne_nil ' ' cur) []
  · simpa using hlw

theorem seed_words (N : Nat) (hN : 1 ≤ N) (cur s : List Char)
    (hne : cur ≠ []) (hg : isWS (cur.getLastD ' ') = false) (hosw : OSW cur) :
    dropE (splitCh ' ' (joinCh ' ' (sliceNeg N (splitCh ' ' cur)) ++ ' ' :: s))
      = ovOf N (trimChars cur) ++ splitCh ' ' s := by
  have hW_ne : splitCh ' ' cur ≠ [] := splitCh_ne_nil ' ' cur
  have how_ne : sliceNeg N (splitCh ' ' cur) ≠ [] := sliceNeg_ne_nil N _ hW_ne hN
  have hnosep : ∀ w ∈ sliceNeg N (splitCh ' ' cur), ' ' ∉ w := by
    intro w hw
    rcases exists_append_sliceNeg N (splitCh ' ' cur) with ⟨pre, hpre⟩
    exact mem_splitCh_not_sep ' ' cur w (by rw [hpre]; exact List.mem_append_right pre hw)
  have hg' : cur.getLastD ' ' ≠ ' ' := by
    intro hcon; rw [hcon] at hg; exact absurd hg (by decide)
  have hlw : (splitCh ' ' cur).getLastD [] ≠ [] := lastWord_ne_nil cur hne hg'
  have hlw_mem : (splitCh ' ' cur).getLastD [] ∈ sliceNeg N (splitCh ' ' cur) :=
    getLastD_mem_drop (splitCh ' ' cur) ((splitCh ' ' cur).length - N) [] how_ne
  have hdow_ne : dropE (sliceNeg N (splitCh ' ' cur)) ≠ [] :=
    dropE_ne_nil _ ⟨(splitCh ' ' cur).getLastD [], hlw_mem, by simpa using hlw⟩
  rw [splitCh_append_sep, splitCh_joinCh ' ' _ how_ne hnosep,
    dropE_append_of_ne_nil _ _ hdow_ne]
  unfold ovOf
  rw [dropE_sliceNeg_dropE, ← splitCh_trimChars cur hne hosw hg]

/-- Invariant carried through `foldl (chunkStep maxTokens N)`; `processed` is
the list of sentence units consumed so far. -/
structure LoopInv (N : Nat) (st : CState) (processed : List (List Char)) : Prop where
  cur_nil : st.cur = [] → st.chunks = [] ∧ st.curAsn = []
  asn_nil : st.curAsn = [] → st.cur = []
  osw : OSW st.cur
  good : st.cur ≠ [] → isWS (st.cur.getLastD ' ') = false
  chain : List.Chain' (OverlapRel N) (st.chunks.map (·.text))
  cont : ∀ t ∈ (st.chunks.map (·.text)).getLast?,
    ∃ X, dropE (splitCh ' ' st.cur) = ovOf N t ++ X
  recon : (st.chunks.map (·.srcSentences)).flatten ++ st.curAsn = processed
  asn_ne : ∀ c ∈ st.chunks, c.srcSentences ≠ []

theorem loopInv_init (N : Nat) : LoopInv N ⟨[], [], 0, 0, []⟩ [] := by
  refine ⟨?_, ?_, ?_, ?_, ?_, ?_, ?_, ?_⟩
  · exact fun _ => ⟨rfl, rfl⟩
  · exact fun _ => rfl
  · intro c hc; simp at hc
  · intro h; exact absurd rfl h
  · simp
  · intro t ht; simp at ht
  · rfl
  · intro c hc; simp at hc

theorem chain_snoc (N : Nat) (st : CState) (pref : List (List Char))
    (inv : LoopInv N st pref) (hcur_ne : st.cur ≠ []) :
    List.Chain' (OverlapRel N) (st.chunks.map (·.text) ++ [trimChars st.cur]) := by
  rw [List.chain'_append]
  refine ⟨inv.chain, List.chain'_singleton _, ?_⟩
  intro x hx y hy
  simp only [List.head?_cons, Option.mem_def, Option.some.injEq] at hy
  subst hy
  rcases inv.cont x hx with ⟨X, hX⟩
  exact ⟨X, by
    rw [splitCh_trimChars st.cur hcur_ne inv.osw (inv.good hcur_ne)]
    exact hX⟩

theorem loopInv_step (N mt : Nat) (hN : 1 ≤ N) (st : CState)
    (pref : List (List Char)) (inv : LoopInv N st pref) (s : List Char)
    (hg : isWS (s.getLastD ' ') = false) (hosw : OSW s) :
    LoopInv N (chunkStep mt N st s) (pref ++ [s]) := by
  simp only [chunkStep]
  split
  case isTrue hcond =>
    simp only [Bool.and_eq_true, decide_eq_true_eq] at hcond
    have hcur_ne : st.cur ≠ [] := by
      intro hcon; rw [hcon] at hcond; simp at hcond
    have hgood := inv.good hcur_ne
    have hasn_ne : st.curAsn ≠ [] := fun hcon => hcur_ne (inv.asn_nil hcon)
    refine ⟨?_, ?_, ?_, ?_, ?_, ?_, ?_, ?_⟩
    · intro h; simp at h
    · intro h; simp at h
    · intro c hc hWS
      rcases List.mem_append.mp hc with h | h
      · rcases mem_joinCh ' ' _ c h with h' | ⟨w, hw, hcw⟩
        · exact h'
        · rcases exists_append_sliceNeg N (splitCh ' ' st.cur) with ⟨pre, hpre⟩
          have : c ∈ st.cur := mem_of_mem_splitCh ' ' st.cur w
            (by rw [hpre]; exact List.mem_append_right pre hw) c hcw
          exact inv.osw c this hWS
      · rcases List.mem_cons.mp h with h' | h'
        · exact h'
        · exact hosw c h' hWS
    · intro _
      show isWS ((joinCh ' ' (sliceNeg N (splitCh ' ' st.cur)) ++ ' ' :: s).getLastD ' ') = false
      rw [getLastD_append_cons, List.getLastD_cons]
      exact hg
    · show List.Chain' (OverlapRel N)
        ((st.chunks ++ [(⟨trimChars st.cur, st.idx, st.curTok, st.curAsn⟩ : ChunkI)]).map
          (fun c => c.text))
      rw [List.map_append]
      exact chain_snoc N st pref inv hcur_ne
    · intro t ht
      simp only [List.map_append, List.map_cons, List.map_nil] at ht
      rw [List.getLast?_concat] at ht
      simp only [Option.mem_def, Option.some.injEq] at ht
      subst ht
      exact ⟨splitCh ' ' s, seed_words N hN st.cur s hcur_ne hgood inv.osw⟩
    · show ((st.chunks ++ [(⟨trimChars st.cur, st.idx, st.curTok, st.curAsn⟩ : ChunkI)]).map
        (fun c => c.srcSentences)).flatten ++ [s] = pref ++ [s]
      rw [List.map_append, List.flatten_append]
      simp only [List.map_cons, List.map_nil, List.flatten_cons, List.flatten_nil,
        List.append_nil]
      rw [List.append_assoc, ← inv.recon]
      simp
    · intro c hc
      rcases List.mem_append.mp hc with h | h
      · exact inv.asn_ne c h
      · simp at h
        rw [h]
        exact hasn_ne
  case isFalse hcond =>
    refine ⟨?_, ?_, ?_, ?_, ?_, ?_, ?_, ?_⟩
    · intro h; simp at h
    · intro h; simp at h
    · intro c hc hWS
      rcases List.mem_append.mp hc with h | h
      · exact inv.osw c h hWS
      · rcases List.mem_cons.mp h with h' | h'
        · exact h'
        · exact hosw c h' hWS
    · intro _
      show isWS ((st.cur ++ ' ' :: s).getLastD ' ') = false
      rw [getLastD_append_cons, List.getLastD_cons]
      exact hg
    · exact inv.chain
    · intro t ht
      have hchunks_ne : st.chunks ≠ [] := by
        intro hcon
        rw [hcon] at ht
        simp at ht
      have hcur_ne : st.cur ≠ [] := by
        intro hcon
        exact hchunks_ne (inv.cur_nil hcon).1
      rcases inv.cont t ht with ⟨X, hX⟩
      refine ⟨X ++ splitCh ' ' s, ?_⟩
      show dropE (splitCh ' ' (st.cur ++ ' ' :: s)) = ovOf N t ++ (X ++ splitCh ' ' s)
      rw [splitCh_append_sep,
        dropE_append_of_ne_nil _ _ (dropE_splitCh_ne st.cur hcur_ne (inv.good hcur_ne)),
        hX, List.append_assoc]
    · show (st.chunks.map (·.srcSentences)).flatten ++ (st.curAsn ++ [s]) = pref ++ [s]
      rw [← List.append_assoc, inv.recon]
    · exact inv.asn_ne

theorem loopInv_fold (N mt : Nat) (hN : 1 ≤ N) :
    ∀ (ss : List (List Char)) (st : CState) (pref : List (List Char)),
      LoopInv N st pref →
      (∀ s ∈ ss, isWS (s.getLastD ' ') = false ∧ OSW s) →
      LoopInv N (ss.foldl (chunkStep mt N) st) (pref ++ ss) := by
  intro ss
  induction ss with
  | nil => intro st pref inv _; simpa using inv
  | cons s rest ih =>
    intro st pref inv hall
    have h1 := loopInv_step N mt hN st pref inv s (hall s (by simp)).1 (hall s (by simp)).2
    have h2 := ih (chunkStep mt N st s) (pref ++ [s]) h1
      (fun x hx => hall x (List.mem_cons_of_mem s hx))
    simpa using h2

theorem chunkFinish_props (N : Nat) (st : CState) (pref : List (List Char))
    (inv : LoopInv N st pref) :
    List.Chain' (OverlapRel N) ((chunkFinish st).map (fun c => c.text))
    ∧ ((chunkFinish st).map (fun c => c.srcSentences)).flatten = pref
    ∧ ∀ c ∈ chunkFinish st, c.srcSentences ≠ [] := by
  unfold chunkFinish
  by_cases h : (trimChars st.cur).length > 0
  · rw [if_pos h]
    have hcur_ne : st.cur ≠ [] := by
      intro hcon
      rw [hcon] at h
      simp [trimChars] at h
    have hasn_ne : st.curAsn ≠ [] := fun hcon => hcur_ne (inv.asn_nil hcon)
    refine ⟨?_, ?_, ?_⟩
    · rw [List.map_append]
      exact chain_snoc N st pref inv hcur_ne
    · rw [List.map_append, List.flatten_append]
      simp only [List.map_cons, List.map_nil, List.flatten_cons, List.flatten_nil,
        List.append_nil]
      exact inv.recon
    · intro c hc
      rcases List.mem_append.mp hc with h' | h'
      · exact inv.asn_ne c h'
      · simp at h'
        rw [h']
        exact hasn_ne
  · rw [if_neg h]
    have htrim : trimChars st.cur = [] := by
      cases htc : trimChars st.cur with
      | nil => rfl
      | cons x xs => rw [htc] at h; simp at h
    have hcur : st.cur = [] := by
      by_contra hne
      exact trimChars_ne_nil st.cur hne (inv.good hne) htrim
    have hasn := (inv.cur_nil hcur).2
    refine ⟨inv.chain, ?_, inv.asn_ne⟩
    have hrec := inv.recon
    rw [hasn, List.append_nil] at hrec
    exact hrec

theorem resolveOpt_pos (o : Option Nat) (d : Nat) (hd : 1 ≤ d) :
    1 ≤ resolveOpt o d := by
  cases o with
  | none => exact hd
  | some n => cases n with
    | zero => exact hd
    | succ m => exact Nat.succ_le_succ (Nat.zero_le m)

theorem chunkTextCore_clean_nil (chars : List Char) (mt ov : Nat)
    (h : cleanChars chars = []) : chunkTextCore chars mt ov = [] := by
  unfold chunkTextCore
  rw [h]
  have hs : sentencesOf [] = [[]] := rfl
  rw [hs]
  have hstep : chunkStep mt ov ⟨[], [], 0, 0, []⟩ [] =
      ⟨[], [' '], 0, 0, [[]]⟩ := by
    simp [chunkStep, countTok]
  simp only [List.foldl]
  rw [hstep]
  rfl

theorem flatten_singleton_parts (L : List (List α)) (x : α)
    (hflat : L.flatten = [x]) (hne : ∀ p ∈ L, p ≠ []) : L = [[x]] := by
  induction L with
  | nil => simp at hflat
  | cons p rest ih =>
    have hp := hne p (by simp)
    cases p with
    | nil => exact absurd rfl hp
    | cons a as =>
      simp only [List.flatten_cons, List.cons_append] at hflat
      have hax : a = x := by injection hflat
      have hnil : as ++ rest.flatten = [] := by injection hflat
      have has : as = [] := (List.append_eq_nil.mp hnil).1
      have hrest : rest.flatten = [] := (List.append_eq_nil.mp hnil).2
      have hrest_nil : rest = [] := by
        cases rest with
        | nil => rfl
        | cons q qs =>
          have hq := hne q (by simp)
          have hall := List.flatten_eq_nil_iff.mp hrest
          exact absurd (hall q (by simp)) hq
      subst hrest_nil
      subst has
      subst hax
      rfl

theorem chunkTextCore_eq (chars : List Char) (mt ov : Nat) :
    chunkTextCore chars mt ov
      = chunkFinish ((sentencesOf (cleanChars chars)).foldl (chunkStep mt ov)
          ⟨[], [], 0, 0, []⟩) := rfl

theorem chunkText_eq (text : String) (options : ChunkOptions) :
    chunkText text options
      = (chunkTextCore text.data (resolveOpt options.maxTokens 500)
          (resolveOpt options.overlap 50)).map
            (fun c => ⟨⟨c.text⟩, c.index, c.tokenCount⟩) := rfl

/-- The main structural fact about the chunk loop: for any input text and any
options, the produced chunks satisfy the pairwise overlap-chain, the
per-chunk assigned sentence units concatenate to the full sentence-unit list
of the cleaned text, and every chunk received at least one sentence unit. -/
theorem chunkTextCore_sound (text : String) (options : ChunkOptions)
    (core : List ChunkI) (ss : List (List Char))
    (hcore : core = chunkTextCore text.data (resolveOpt options.maxTokens 500)
      (resolveOpt options.overlap 50))
    (hss : ss = sentencesOf (cleanChars text.data)) :
    List.Chain' (OverlapRel (resolveOpt options.overlap 50))
      (core.map (fun c => c.text))
    ∧ (cleanChars text.data ≠ [] →
      (core.map (fun c => c.srcSentences)).flatten = ss)
    ∧ ∀ c ∈ core, c.srcSentences ≠ [] := by
  rw [hcore, hss]
  have hN : 1 ≤ resolveOpt options.overlap 50 :=
    resolveOpt_pos _ 50 (by omega)
  by_cases hclean : cleanChars text.data = []
  · rw [chunkTextCore_clean_nil _ _ _ hclean]
    refine ⟨by simp, fun hcon => absurd hclean hcon, by simp⟩
  · have hall := sentences_good_osw text.data hclean
    rw [chunkTextCore_eq]
    obtain ⟨ssG, hssG⟩ : ∃ x, x = sentencesOf (cleanChars text.data) := ⟨_, rfl⟩
    rw [← hssG] at hall ⊢
    have inv := loopInv_fold (resolveOpt options.overlap 50)
      (resolveOpt options.maxTokens 500) hN
      ssG ⟨[], [], 0, 0, []⟩ [] (loopInv_init _) (fun s hs => hall s hs)
    rw [List.nil_append] at inv
    obtain ⟨stF, hst⟩ : ∃ x, x = ssG.foldl
      (chunkStep (resolveOpt options.maxTokens 500) (resolveOpt options.overlap 50))
      ⟨[], [], 0, 0, []⟩ := ⟨_, rfl⟩
    rw [← hst] at inv ⊢
    have props := chunkFinish_props _ _ _ inv
    exact ⟨props.1, fun _ => props.2.1, props.2.2⟩

/-- C7: with overlap configuration `N = resolveOpt options.overlap 50`
(default 50), each chunk after the first starts with the word sequence
`ovOf N prev` — which is a suffix of the previous chunk's word sequence of
length at most `N` — followed by its own material. -/
theorem chunkText_overlap_bounded (text : String) (options : ChunkOptions) :
    List.Chain' (OverlapRel (resolveOpt options.overlap 50))
      ((chunkTextCore text.data (resolveOpt options.maxTokens 500)
        (resolveOpt options.overlap 50)).map (fun c => c.text))
    ∧ (chunkText text options).map (fun c => c.text.data)
        = (chunkTextCore text.data (resolveOpt options.maxTokens 500)
            (resolveOpt options.overlap 50)).map (fun c => c.text)
    ∧ ∀ t : List Char,
        (∃ pre, splitCh ' ' t = pre ++ ovOf (resolveOpt options.overlap 50) t)
        ∧ (ovOf (resolveOpt options.overlap 50) t).length
            ≤ resolveOpt options.overlap 50 := by
  obtain ⟨core, hcore⟩ : ∃ x, x = chunkTextCore text.data
      (resolveOpt options.maxTokens 500) (resolveOpt options.overlap 50) := ⟨_, rfl⟩
  have hsound := chunkTextCore_sound text options core _ hcore rfl
  rw [← hcore]
  refine ⟨hsound.1, ?_, ?_⟩
  · rw [chunkText_eq, ← hcore, List.map_map]
    exact List.map_congr_left (fun c _ => rfl)
  · intro t
    constructor
    · rcases exists_append_sliceNeg (resolveOpt options.overlap 50) (splitCh ' ' t)
        with ⟨p1, hp1⟩
      rcases dropWhile_suffix_ex (fun w : List Char => w.isEmpty)
        (sliceNeg (resolveOpt options.overlap 50) (splitCh ' ' t)) with ⟨p2, hp2⟩
      refine ⟨p1 ++ p2, ?_⟩
      rw [List.append_assoc]
      unfold ovOf dropE
      rw [← hp2, ← hp1]
    · calc (ovOf (resolveOpt options.overlap 50) t).length
          ≤ (sliceNeg (resolveOpt options.overlap 50) (splitCh ' ' t)).length :=
            length_dropE_le _
        _ ≤ resolveOpt options.overlap 50 := length_sliceNeg_le _ _

/-- C2 (amended): if the whitespace-normalized text is non-empty, `chunkText`
returns at least one chunk, the sentence units assigned to the chunks
concatenate to the full sentence-unit sequence of the normalized text (no unit
dropped), and when the normalized text is a single sentence unit — in
particular a single run-on sentence whose token estimate exceeds the maximum —
that unit becomes exactly one chunk of its own. -/
theorem chunkText_reconstructs (text : String) (options : ChunkOptions)
    (h : cleanChars text.data ≠ []) :
    1 ≤ (chunkText text options).length
    ∧ ((chunkTextCore text.data (resolveOpt options.maxTokens 500)
        (resolveOpt options.overlap 50)).map (fun c => c.srcSentences)).flatten
        = sentencesOf (cleanChars text.data)
    ∧ ∀ s : List Char, sentencesOf (cleanChars text.data) = [s] →
        (chunkTextCore text.data (resolveOpt options.maxTokens 500)
          (resolveOpt options.overlap 50)).map (fun c => c.srcSentences) = [[s]] := by
  obtain ⟨core, hcore⟩ : ∃ x, x = chunkTextCore text.data
      (resolveOpt options.maxTokens 500) (resolveOpt options.overlap 50) := ⟨_, rfl⟩
  obtain ⟨ss, hss⟩ : ∃ x, x = sentencesOf (cleanChars text.data) := ⟨_, rfl⟩
  have hsound := chunkTextCore_sound text options core ss hcore hss
  rw [← hcore, ← hss]
  have hflat := hsound.2.1 h
  have hparts := hsound.2.2
  have hcore_ne : core ≠ [] := by
    intro hcon
    rw [hcon] at hflat
    simp at hflat
    refine sentencesOf_ne_nil (cleanChars text.data) ?_
    rw [← hss]
    exact hflat
  refine ⟨?_, hflat, ?_⟩
  · rw [chunkText_eq, ← hcore, List.length_map]
    have := List.length_pos.mpr hcore_ne
    omega
  · intro s hs
    refine flatten_singleton_parts _ s (by rw [hflat, hs]) ?_
    intro p hp
    rcases List.mem_map.mp hp with ⟨c, hc, hcp⟩
    rw [← hcp]
    exact hparts c hc

/-- Witness for `chunkText_reconstructs` at the concrete input `"Hi there."`
with default options. -/
theorem chunkText_reconstructs_witness :
    cleanChars ("Hi there." : String).data ≠ []
    ∧ (1 ≤ (chunkText "Hi there." ⟨none, none⟩).length
      ∧ ((chunkTextCore ("Hi there." : String).data (resolveOpt none 500)
          (resolveOpt none 50)).map (fun c => c.srcSentences)).flatten
          = sentencesOf (cleanChars ("Hi there." : String).data)
      ∧ ∀ s : List Char, sentencesOf (cleanChars ("Hi there." : String).data) = [s] →
          (chunkTextCore ("Hi there." : String).data (resolveOpt none 500)
            (resolveOpt none 50)).map (fun c => c.srcSentences) = [[s]]) :=
  ⟨by decide, chunkText_reconstructs "Hi there." ⟨none, none⟩ (by decide)⟩

/-- C2 counterexample: the claim quantifies over every non-empty input text,
but the whitespace-only input `" "` is non-empty and yields zero chunks. -/
theorem chunkText_nonempty_claim_false :
    (" " : String) ≠ "" ∧ chunkText " " ⟨none, none⟩ = [] := by
  constructor
  · decide
  · rfl

/-! ## Data model (`src/modal/knowledgeBase.ts`) -/

inductive ChatbotType
  | general
  | urogynaecology
  | aesthetic
  | menopause
deriving DecidableEq, Repr

def ctString : ChatbotType → String
  | .general => "general"
  | .urogynaecology => "urogynaecology"
  | .aesthetic => "aesthetic"
  | .menopause => "menopause"

inductive ProcessingStatus
  | pending
  | processing
  | completed
  | failed
deriving DecidableEq, Repr

/-- A knowledge-base document record (knowledgeBaseSchema). Timestamps are
abstract strings supplied by oracles. -/
structure KBDoc where
  chatbotType : ChatbotType
  fileName : String
  fileUrl : String
  fileSize : Nat
  mimeType : String
  description : Option String
  chunkCount : Nat
  status : ProcessingStatus
  errorMessage : Option String
  pineconeNamespace : String
  processedAt : Option String
deriving DecidableEq, Repr

/-! ## Upload path (`src/routes/knowledgeBase.ts` multer storage and
`uploadKnowledgeBase` in `src/controller/categoryController.ts`) -/

/-- The multer disk-storage filename callback: the stored file name is
`Date.now() + "-" + Math.round(Math.random() * 1e9) + "-" + file.originalname`;
the timestamp and random draw are oracle inputs. -/
def multerFilename (ts rand : Nat) (originalname : String) : String :=
  toString ts ++ "-" ++ toString rand ++ "-" ++ originalname

/-- The stored path `uploadDir/<uniqueSuffix>-<originalname>` (`file.path`). -/
def storedFilePath (uploadDir : String) (ts rand : Nat) (originalname : String) :
    String :=
  uploadDir ++ "/" ++ multerFilename ts rand originalname

/-- Node `path.basename` for posix paths: the final `/`-separated component. -/
def pathBasename (p : String) : String :=
  ⟨(splitCh '/' p.data).getLastD []⟩

/-- The document record created by `uploadKnowledgeBase` before triggering the
async pipeline: status `pending`, `chunkCount` 0 (schema default), namespace
derived as `chatbot-<chatbotType>`, `fileName` the ORIGINAL name and `fileUrl`
the stored path. -/
def uploadDoc (chatbotType : ChatbotType) (originalname storedPath : String)
    (size : Nat) (description : Option String) : KBDoc where
  chatbotType := chatbotType
  fileName := originalname
  fileUrl := storedPath
  fileSize := size
  mimeType := "application/pdf"
  description := description
  chunkCount := 0
  status := .pending
  errorMessage := none
  pineconeNamespace := "chatbot-" ++ ctString chatbotType
  processedAt := none

/-! ## Vector index (`src/services/pineconeService.ts`) -/

/-- `VectorMetadata` (pineconeService.ts). -/
structure VectorMetadata where
  text : String
  fileName : String
  chatbotType : String
  chunkIndex : Nat
  documentId : String
  uploadedAt : String
deriving DecidableEq, Repr

/-- A vector passed to upsert. -/
structure PineVector where
  id : String
  values : List Int
  metadata : VectorMetadata
deriving DecidableEq, Repr

/-- A record held in the Pinecone index; `nspace` models the namespace
partition (`namespace` is a Lean keyword). -/
structure StoredRec where
  nspace : String
  id : String
  values : List Int
  metadata : VectorMetadata
deriving DecidableEq, Repr

/-- The content of the vector index. -/
abbrev VStore := List StoredRec

/-- Pinecone upsert semantics for one record: replace the record with the same
(namespace, id), else append (one record per id per namespace). -/
def upsertRec (s : VStore) (ns : String) (v : PineVector) : VStore :=
  if s.any (fun r => r.nspace = ns && r.id = v.id) then
    s.map (fun r =>
      if r.nspace = ns && r.id = v.id then ⟨ns, v.id, v.values, v.metadata⟩ else r)
  else s ++ [⟨ns, v.id, v.values, v.metadata⟩]

def upsertBatch (s : VStore) (ns : String) (b : List PineVector) : VStore :=
  b.foldl (fun s v => upsertRec s ns v) s

/-- `upsertVectors`: upsert in consecutive batches of 100. -/
def upsertVectors (s : VStore) (ns : String) (vectors : List PineVector) : VStore :=
  (batchesOf 100 vectors).foldl (fun s b => upsertBatch s ns b) s

/-- `deleteNamespace`: `index.namespace(ns).deleteAll()` — removes EVERY record
of the namespace, regardless of which document owns it. -/
def deleteNamespace (s : VStore) (ns : String) : VStore :=
  s.filter (fun r => !(r.nspace = ns))

/-! ## Embeddings (`src/services/openaiService.ts`) -/

/-- `generateEmbeddings`: issue the input texts to the embeddings endpoint
(`api` oracle) in batches of at most 2048 and concatenate the responses in
order. -/
def generateEmbeddings (texts : List String)
    (api : List String → List (List Int)) : List (List Int) :=
  ((batchesOf 2048 texts).map api).flatten

/-! ## Ingestion pipeline (`processPDF` in pdfProcessorService.ts and
`processKnowledgeBaseAsync` in categoryController.ts) -/

/-- `processPDF`, with the `extractTextFromPDF` outcome supplied as an oracle:
reject empty/whitespace-only text, chunk, reject an empty chunk list. -/
def processPDF (extracted : Except String String) (options : ChunkOptions) :
    Except String (List TextChunk) :=
  match extracted with
  | .error e => .error e
  | .ok text =>
    if (trimChars text.data).length = 0 then
      .error "No text content found in PDF"
    else
      let chunks := chunkText text options
      if chunks.length = 0 then
        .error "Failed to create text chunks from PDF"
      else
        .ok chunks

/-- Step 3 of `processKnowledgeBaseAsync`: one vector per chunk with id
`documentId ++ "-chunk-" ++ chunk.index` (the chunk's OWN index), the
embedding picked positionally, and metadata fileName from
`path.basename(filePath)`. -/
def buildVectors (documentId filePath : String) (chatbotType : ChatbotType)
    (now : String) (chunks : List TextChunk) (embeddings : List (List Int)) :
    List PineVector :=
  chunks.enum.map (fun p =>
    { id := documentId ++ "-chunk-" ++ toString p.2.index
      values := embeddings.getD p.1 []
      metadata :=
        { text := p.2.text
          fileName := pathBasename filePath
          chatbotType := ctString chatbotType
          chunkIndex := p.2.index
          documentId := documentId
          uploadedAt := now } })

/-- The successive document-record states written by
`processKnowledgeBaseAsync` via its three `findByIdAndUpdate` calls, starting
from the record at upload time. `extracted`, `embedRes` and `upsertRes` are
the outcomes of the external calls (PDF extraction, OpenAI embeddings,
Pinecone upsert); any failure is caught and recorded as status `failed` with
the error message attached. -/
def processKnowledgeBaseAsync (doc : KBDoc) (extracted : Except String String)
    (embedRes : List String → Except String (List (List Int)))
    (upsertRes : Except String Unit) (now : String) : List KBDoc :=
  let d1 : KBDoc := { doc with status := .processing }
  match processPDF extracted ⟨some 500, some 50⟩ with
  | .error e => [doc, d1, { d1 with status := .failed, errorMessage := some e }]
  | .ok chunks =>
    match embedRes (chunks.map (fun c => c.text)) with
    | .error e => [doc, d1, { d1 with status := .failed, errorMessage := some e }]
    | .ok _ =>
      match upsertRes with
      | .error e => [doc, d1, { d1 with status := .failed, errorMessage := some e }]
      | .ok _ =>
          [doc, d1,
            { d1 with
              status := .completed
              processedAt := some now
              chunkCount := chunks.length }]

/-! ## Deletion (`deleteKnowledgeBase` in categoryController.ts) -/

inductive DeleteOutcome
  | notFound
  | ok
deriving DecidableEq, Repr

structure DeleteResult where
  db : List (String × KBDoc)
  store : VStore
  files : List String
  response : DeleteOutcome
deriving DecidableEq, Repr

/-- `deleteKnowledgeBase`: 404 when the id is absent; otherwise delete the
stored file, call `deleteNamespace` on the document's namespace (the code
comments say "deletes by filter" but the call is `deleteAll()` on the whole
namespace), and remove the record. -/
def deleteKnowledgeBase (db : List (String × KBDoc)) (store : VStore)
    (files : List String) (id : String) : DeleteResult :=
  match db.find? (fun p => p.1 = id) with
  | none => ⟨db, store, files, .notFound⟩
  | some p =>
    ⟨db.filter (fun q => !(q.1 = id)),
     deleteNamespace store p.2.pineconeNamespace,
     files.filter (fun f => !(f = p.2.fileUrl)),
     .ok⟩

/-! ## RAG engine (`src/services/ragService.ts`) and chat controller
(`src/controller/smsController.ts`) -/

structure RagMatch where
  text : String
  fileName : String
  score : Int
deriving DecidableEq, Repr

inductive MsgRole
  | system
  | user
  | assistant
deriving DecidableEq, Repr

structure ChatMessage where
  role : MsgRole
  content : String
deriving DecidableEq, Repr

/-- Effects emitted towards external services during one chat request. -/
inductive ChatEff
  | embedQ (q : String)
  | vecQuery (ns : String) (topK : Nat)
  | completionCall
  | persistTry (ok : Bool)
deriving DecidableEq, Repr

def ChatEff.isVec : ChatEff → Bool
  | .vecQuery _ _ => true
  | _ => false

/-- External collaborators of the answer path: query embedding, vector-index
query (namespace, vector, topK — the chatbotType filter is part of the
oracle), chat completion, conversation persistence success flag, and the
request timestamp. -/
structure ChatEnv where
  embed : String → List Int
  queryVecs : String → List Int → Nat → List RagMatch
  complete : List ChatMessage → String
  persistOk : Bool
  now : String

/-- The per-chatbot system prompts (`systemPrompts` in ragService.ts),
abbreviated to their opening line; the prompt text is opaque data for every
property considered here. -/
def systemPrompt : ChatbotType → String
  | .general =>
    "You are a knowledgeable and empathetic General Gynaecology AI assistant for GyneClinics."
  | .urogynaecology =>
    "You are a specialized Urogynaecology AI assistant for GyneClinics."
  | .aesthetic =>
    "You are a caring Aesthetic Gynaecology AI assistant for GyneClinics."
  | .menopause =>
    "You are a supportive Menopause Health AI assistant for GyneClinics."

structure HistMsg where
  role : String
  content : String
deriving DecidableEq, Repr

def strJoin (sep : String) (parts : List String) : String :=
  String.intercalate sep parts

/-- `generateRAGResponse`: embed the query, query the topic namespace for the
top 5 chunks, build the labelled context block, deduplicate source filenames,
compose the message sequence and call the completion provider. Returns
(response, sources, relevantChunks) plus the emitted effects. -/
def generateRAGResponse (env : ChatEnv) (userQuery : String) (t : ChatbotType)
    (conversationHistory : Option (List HistMsg)) :
    (String × List String × List RagMatch) × List ChatEff :=
  let queryEmbedding := env.embed userQuery
  let ns := "chatbot-" ++ ctString t
  let relevantChunks := env.queryVecs ns queryEmbedding 5
  let contextString := strJoin "\n\n" (relevantChunks.enum.map (fun p =>
    "[Context " ++ toString (p.1 + 1) ++ "]: " ++ p.2.text))
  let sources := dedupFirst (relevantChunks.map (fun c => c.fileName))
  let histMsgs : List ChatMessage :=
    match conversationHistory with
    | none => []
    | some hist =>
      hist.map (fun m =>
        ⟨if m.role = "user" then .user else .assistant, m.content⟩)
  let messages : List ChatMessage :=
    ⟨.system, systemPrompt t⟩ ::
    ⟨.system, "Here is relevant information from our knowledge base:\n\n"
      ++ contextString
      ++ "\n\nUse this context to answer the question."⟩ ::
    (histMsgs ++ [⟨.user, userQuery⟩])
  let response := env.complete messages
  ((response, sources, relevantChunks),
    [.embedQ userQuery, .vecQuery ns 5, .completionCall])

/-- `generateSimpleResponse`: system prompt plus user query, no retrieval. -/
def generateSimpleResponse (env : ChatEnv) (userQuery : String)
    (t : ChatbotType) : String × List ChatEff :=
  (env.complete [⟨.system, systemPrompt t⟩, ⟨.user, userQuery⟩],
    [.completionCall])

structure ConvMessage where
  sender : String
  text : String
  timestamp : String
  sources : Option (List String)
deriving DecidableEq, Repr

structure Conversation where
  sessionId : String
  chatbotType : ChatbotType
  messages : List ConvMessage
  lastMessageAt : Option String
deriving DecidableEq, Repr

/-- `saveConversation` (smsController.ts): find-or-create the session record,
append the user message and the AI message, update `lastMessageAt`, persist —
persistence may throw (`persistOk = false`). -/
def saveConversation (convs : List Conversation) (persistOk : Bool)
    (now sessionId : String) (t : ChatbotType) (userMessage aiResponse : String)
    (sources : List String) : Except String (List Conversation) :=
  if persistOk then
    let conv : Conversation :=
      match convs.find? (fun c => c.sessionId = sessionId) with
      | some c => c
      | none => ⟨sessionId, t, [], none⟩
    let conv' : Conversation :=
      ⟨conv.sessionId, conv.chatbotType,
        conv.messages ++ [⟨"user", userMessage, now, none⟩,
          ⟨"ai", aiResponse, now, some sources⟩],
        some now⟩
    .ok ((convs.filter (fun c => !(c.sessionId = sessionId))) ++ [conv'])
  else
    .error "save failed"

inductive ChatResponse
  | badRequest (message : String)
  | ok (response : String) (sources : List String) (hasKnowledgeBase : Bool)
      (timestamp : String)
deriving DecidableEq, Repr

def validChatbotTypes : List String :=
  ["general", "urogynaecology", "aesthetic", "menopause"]

/-- The chatbot type named by a validated request string. -/
def ctOfString (s : String) : ChatbotType :=
  if s = "urogynaecology" then .urogynaecology
  else if s = "aesthetic" then .aesthetic
  else if s = "menopause" then .menopause
  else .general

structure ChatRequest where
  message : String
  chatbotType : String
  sessionId : Option String
  conversationHistory : Option (List HistMsg)
deriving DecidableEq, Repr

/-- `handleChatQuery` (smsController.ts): validate, check
`KnowledgeBase.exists({chatbotType, status: "completed"})`, answer via RAG or
the simple fallback, optionally save the conversation (failures logged and
swallowed), and respond with `{response, sources, hasKnowledgeBase,
timestamp}`. -/
def handleChatQuery (env : ChatEnv) (db : List KBDoc)
    (convs : List Conversation) (req : ChatRequest) :
    (ChatResponse × List Conversation) × List ChatEff :=
  if (trimChars req.message.data).length = 0 then
    ((.badRequest "Message is required", convs), [])
  else if ¬ (req.chatbotType ∈ validChatbotTypes) then
    ((.badRequest "Invalid chatbot type", convs), [])
  else
    let hasKB := db.any (fun d =>
      ctString d.chatbotType = req.chatbotType && d.status = .completed)
    let t := ctOfString req.chatbotType
    let ragOut :=
      if hasKB then
        let o := generateRAGResponse env req.message t req.conversationHistory
        ((o.1.1, o.1.2.1), o.2)
      else
        let o := generateSimpleResponse env req.message t
        ((o.1, ([] : List String)), o.2)
    let saveOut :=
      match req.sessionId with
      | none => (convs, ([] : List ChatEff))
      | some sid =>
        match saveConversation convs env.persistOk env.now sid t req.message
          ragOut.1.1 ragOut.1.2 with
        | .ok cs => (cs, [ChatEff.persistTry true])
        | .error _ => (convs, [ChatEff.persistTry false])
    ((.ok ragOut.1.1 ragOut.1.2 hasKB env.now, saveOut.1),
      ragOut.2 ++ saveOut.2)

/-! ## Claim C1 — deletion wipes the whole namespace -/

def kbDocD1 : KBDoc :=
  { uploadDoc .general "a.pdf" "uploads/1-1-a.pdf" 10 none with
      status := .completed, chunkCount := 1 }

def kbDocD2 : KBDoc :=
  { uploadDoc .general "b.pdf" "uploads/2-2-b.pdf" 10 none with
      status := .completed, chunkCount := 1 }

/-- A vector record belonging to the sibling document `d2`. -/
def recD2 : StoredRec :=
  ⟨"chatbot-general", "d2-chunk-0", [2], ⟨"t2", "2-2-b.pdf", "general", 0, "d2", "z"⟩⟩

def storeC1 : VStore :=
  [⟨"chatbot-general", "d1-chunk-0", [1], ⟨"t1", "1-1-a.pdf", "general", 0, "d1", "z"⟩⟩,
   recD2]

/-- C1: deleting document `d1` via DELETE /knowledge-base/:id also removes the
sibling document `d2`'s vector from the shared namespace `chatbot-general`
(the store is left empty), contradicting the claim that sibling documents'
vectors are untouched: `deleteKnowledgeBase` calls `deleteNamespace`, which is
`deleteAll()` on the whole namespace. -/
theorem deleteKnowledgeBase_deletes_sibling_vectors :
    recD2 ∈ storeC1
    ∧ recD2.metadata.documentId = "d2"
    ∧ (deleteKnowledgeBase [("d1", kbDocD1), ("d2", kbDocD2)] storeC1 [] "d1").response
        = DeleteOutcome.ok
    ∧ recD2 ∉ (deleteKnowledgeBase [("d1", kbDocD1), ("d2", kbDocD2)] storeC1 [] "d1").store
    ∧ (deleteKnowledgeBase [("d1", kbDocD1), ("d2", kbDocD2)] storeC1 [] "d1").store = [] := by
  decide

/-! ## Claim C4 — empty extracted text ends in `failed` -/

/-- C4: when the extracted text is empty or whitespace-only, the pipeline ends
with status `failed`, a non-empty error message, and an unchanged (zero) chunk
count. -/
theorem ingest_empty_text_fails (doc : KBDoc) (text : String)
    (embedRes : List String → Except String (List (List Int)))
    (upsertRes : Except String Unit) (now : String)
    (hchunk : doc.chunkCount = 0)
    (hempty : (trimChars text.data).length = 0) :
    ((processKnowledgeBaseAsync doc (.ok text) embedRes upsertRes now).getLastD doc).status
        = .failed
    ∧ (∃ m, ((processKnowledgeBaseAsync doc (.ok text) embedRes upsertRes now).getLastD
        doc).errorMessage = some m ∧ m ≠ "")
    ∧ ((processKnowledgeBaseAsync doc (.ok text) embedRes upsertRes now).getLastD
        doc).chunkCount = 0 := by
  have hpdf : processPDF (.ok text) ⟨some 500, some 50⟩
      = .error "No text content found in PDF" := by
    show (if (trimChars text.data).length = 0 then
        (Except.error "No text content found in PDF" : Except String (List TextChunk))
      else
        let chunks := chunkText text ⟨some 500, some 50⟩
        if chunks.length = 0 then Except.error "Failed to create text chunks from PDF"
        else Except.ok chunks)
      = Except.error "No text content found in PDF"
    rw [if_pos hempty]
  unfold processKnowledgeBaseAsync
  rw [hpdf]
  refine ⟨rfl, ⟨"No text content found in PDF", rfl, by decide⟩, ?_⟩
  simpa using hchunk

/-- Witness for `ingest_empty_text_fails` at a whitespace-only extraction. -/
theorem ingest_empty_text_fails_witness :
    (uploadDoc .general "a.pdf" "p" 1 none).chunkCount = 0
    ∧ (trimChars ("  " : String).data).length = 0
    ∧ ((processKnowledgeBaseAsync (uploadDoc .general "a.pdf" "p" 1 none) (.ok "  ")
        (fun _ => .ok []) (.ok ()) "T").getLastD
          (uploadDoc .general "a.pdf" "p" 1 none)).status = .failed :=
  ⟨by decide, by decide,
    (ingest_empty_text_fails (uploadDoc .general "a.pdf" "p" 1 none) "  "
      (fun _ => .ok []) (.ok ()) "T" (by decide) (by decide)).1⟩

/-! ## Claim C5 — document state machine -/

/-- The allowed status edges of §4.3: `pending → processing` and
`processing → completed | failed`; no edge leaves a terminal state. -/
def statusEdge (a b : ProcessingStatus) : Prop :=
  (a = .pending ∧ b = .processing)
  ∨ (a = .processing ∧ (b = .completed ∨ b = .failed))

/-- One legal update of the document record: an allowed status edge that
keeps the namespace unchanged. -/
def docStep (a b : KBDoc) : Prop :=
  statusEdge a.status b.status ∧ b.pineconeNamespace = a.pineconeNamespace

/-- C5: along the whole upload-then-ingest trace, for any oracle outcomes,
consecutive states follow the allowed edges (so no terminal state is ever
left), the namespace never changes from the value derived at upload, the
chunk count is non-zero only in `completed`, the trace starts `pending`, and
deletion only removes records (any record surviving deletion is unchanged). -/
theorem pipeline_state_machine (t : ChatbotType) (orig path : String)
    (size : Nat) (desc : Option String) (extracted : Except String String)
    (embedRes : List String → Except String (List (List Int)))
    (upsertRes : Except String Unit) (now : String) :
    List.Chain' docStep
      (processKnowledgeBaseAsync (uploadDoc t orig path size desc) extracted
        embedRes upsertRes now)
    ∧ (∀ d ∈ processKnowledgeBaseAsync (uploadDoc t orig path size desc) extracted
        embedRes upsertRes now, d.pineconeNamespace = "chatbot-" ++ ctString t)
    ∧ (∀ d ∈ processKnowledgeBaseAsync (uploadDoc t orig path size desc) extracted
        embedRes upsertRes now, d.chunkCount ≠ 0 → d.status = .completed)
    ∧ (uploadDoc t orig path size desc).status = .pending
    ∧ (∀ db store files i p, p ∈ (deleteKnowledgeBase db store files i).db → p ∈ db) := by
  have hdel : ∀ (db : List (String × KBDoc)) (store : VStore) (files : List String)
      (i : String) (p : String × KBDoc),
      p ∈ (deleteKnowledgeBase db store files i).db → p ∈ db := by
    intro db store files i p hp
    unfold deleteKnowledgeBase at hp
    cases hfind : db.find? (fun q => q.1 = i) with
    | none => rw [hfind] at hp; exact hp
    | some q =>
      rw [hfind] at hp
      exact List.mem_of_mem_filter hp
  unfold processKnowledgeBaseAsync
  cases hpdf : processPDF extracted ⟨some 500, some 50⟩ with
  | error e =>
    dsimp only
    refine ⟨?_, ?_, ?_, rfl, hdel⟩
    · refine List.chain'_cons.mpr ⟨?_, List.chain'_cons.mpr ⟨?_, List.chain'_singleton _⟩⟩
      · exact ⟨Or.inl ⟨rfl, rfl⟩, rfl⟩
      · exact ⟨Or.inr ⟨rfl, Or.inr rfl⟩, rfl⟩
    · intro d hd
      simp only [List.mem_cons, List.not_mem_nil, or_false] at hd
      rcases hd with hd | hd | hd <;> subst hd <;> rfl
    · intro d hd
      simp only [List.mem_cons, List.not_mem_nil, or_false] at hd
      rcases hd with hd | hd | hd <;> subst hd <;> intro hc <;> exact absurd rfl hc
  | ok chunks =>
    dsimp only
    cases hemb : embedRes (chunks.map (fun c => c.text)) with
    | error e =>
      dsimp only
      refine ⟨?_, ?_, ?_, rfl, hdel⟩
      · refine List.chain'_cons.mpr ⟨?_, List.chain'_cons.mpr ⟨?_, List.chain'_singleton _⟩⟩
        · exact ⟨Or.inl ⟨rfl, rfl⟩, rfl⟩
        · exact ⟨Or.inr ⟨rfl, Or.inr rfl⟩, rfl⟩
      · intro d hd
        simp only [List.mem_cons, List.not_mem_nil, or_false] at hd
        rcases hd with hd | hd | hd <;> subst hd <;> rfl
      · intro d hd
        simp only [List.mem_cons, List.not_mem_nil, or_false] at hd
        rcases hd with hd | hd | hd <;> subst hd <;> intro hc <;> exact absurd rfl hc
    | ok embs =>
      dsimp only
      cases hup : upsertRes with
      | error e =>
        dsimp only
        refine ⟨?_, ?_, ?_, rfl, hdel⟩
        · refine List.chain'_cons.mpr ⟨?_, List.chain'_cons.mpr ⟨?_, List.chain'_singleton _⟩⟩
          · exact ⟨Or.inl ⟨rfl, rfl⟩, rfl⟩
          · exact ⟨Or.inr ⟨rfl, Or.inr rfl⟩, rfl⟩
        · intro d hd
          simp only [List.mem_cons, List.not_mem_nil, or_false] at hd
          rcases hd with hd | hd | hd <;> subst hd <;> rfl
        · intro d hd
          simp only [List.mem_cons, List.not_mem_nil, or_false] at hd
          rcases hd with hd | hd | hd <;> subst hd <;> intro hc <;> exact absurd rfl hc
      | ok u =>
        dsimp only
        refine ⟨?_, ?_, ?_, rfl, hdel⟩
        · refine List.chain'_cons.mpr ⟨?_, List.chain'_cons.mpr ⟨?_, List.chain'_singleton _⟩⟩
          · exact ⟨Or.inl ⟨rfl, rfl⟩, rfl⟩
          · exact ⟨Or.inr ⟨rfl, Or.inl rfl⟩, rfl⟩
        · intro d hd
          simp only [List.mem_cons, List.not_mem_nil, or_false] at hd
          rcases hd with hd | hd | hd <;> subst hd <;> rfl
        · intro d hd
          simp only [List.mem_cons, List.not_mem_nil, or_false] at hd
          rcases hd with hd | hd | hd <;> subst hd
          · intro hc; exact absurd rfl hc
          · intro hc; exact absurd rfl hc
          · intro hc; rfl

/-- Witness: the state-machine invariant on a concrete successful run. -/
theorem pipeline_state_machine_witness :
    List.Chain' docStep
      (processKnowledgeBaseAsync (uploadDoc .general "a.pdf" "p" 1 none)
        (.ok "Hello there.") (fun _ => .ok [[1]]) (.ok ()) "T") :=
  (pipeline_state_machine .general "a.pdf" "p" 1 none (.ok "Hello there.")
    (fun _ => .ok [[1]]) (.ok ()) "T").1

/-! ## Claim C10 — vector metadata carries the stored (prefixed) filename -/

theorem string_data_append (a b : String) : (a ++ b).data = a.data ++ b.data := rfl

theorem digitChar_ne_slash (m : Nat) : Nat.digitChar m ≠ '/' := by
  match m with
  | 0 => decide
  | 1 => decide
  | 2 => decide
  | 3 => decide
  | 4 => decide
  | 5 => decide
  | 6 => decide
  | 7 => decide
  | 8 => decide
  | 9 => decide
  | 10 => decide
  | 11 => decide
  | 12 => decide
  | 13 => decide
  | 14 => decide
  | 15 => decide
  | n + 16 =>
    show Nat.digitChar (n + 16) ≠ '/'
    unfold Nat.digitChar
    have h : ∀ k, k < 16 → ¬ (n + 16 = k) := by omega
    rw [if_neg (h 0 (by decide)), if_neg (h 1 (by decide)),
      if_neg (h 2 (by decide)), if_neg (h 3 (by decide)),
      if_neg (h 4 (by decide)), if_neg (h 5 (by decide)),
      if_neg (h 6 (by decide)), if_neg (h 7 (by decide)),
      if_neg (h 8 (by decide)), if_neg (h 9 (by decide)),
      if_neg (h 10 (by decide)), if_neg (h 11 (by decide)),
      if_neg (h 12 (by decide)), if_neg (h 13 (by decide)),
      if_neg (h 14 (by decide)), if_neg (h 15 (by decide))]
    decide

theorem toDigitsCore_no_slash (f : Nat) : ∀ (n : Nat) (acc : List Char),
    '/' ∉ acc → '/' ∉ Nat.toDigitsCore 10 f n acc := by
  induction f with
  | zero => intro n acc hacc; simpa [Nat.toDigitsCore] using hacc
  | succ f' ih =>
    intro n acc hacc
    unfold Nat.toDigitsCore
    dsimp only
    have hcons : '/' ∉ Nat.digitChar (n % 10) :: acc := by
      intro hmem
      rcases List.mem_cons.mp hmem with h' | h'
      · exact digitChar_ne_slash _ h'.symm
      · exact hacc h'
    split_ifs with h
    · exact hcons
    · exact ih _ _ hcons

theorem toString_nat_no_slash (n : Nat) : '/' ∉ (toString n).data := by
  show '/' ∉ (Nat.toDigits 10 n).asString.data
  show '/' ∉ Nat.toDigits 10 n
  unfold Nat.toDigits
  exact toDigitsCore_no_slash _ _ _ (by simp)

theorem no_slash_multerFilename (ts rand : Nat) (orig : String)
    (ho : '/' ∉ orig.data) : '/' ∉ (multerFilename ts rand orig).data := by
  unfold multerFilename
  rw [string_data_append, string_data_append, string_data_append, string_data_append]
  intro hmem
  rcases List.mem_append.mp hmem with h | h
  · rcases List.mem_append.mp h with h | h
    · rcases List.mem_append.mp h with h | h
      · rcases List.mem_append.mp h with h | h
        · exact toString_nat_no_slash ts h
        · simp at h
      · exact toString_nat_no_slash rand h
    · simp at h
  · exact ho h

theorem multerFilename_ne_orig (ts rand : Nat) (orig : String) :
    multerFilename ts rand orig ≠ orig := by
  intro hcon
  have hdata := congrArg String.data hcon
  unfold multerFilename at hdata
  rw [string_data_append, string_data_append, string_data_append,
    string_data_append] at hdata
  have hlen := congrArg List.length hdata
  simp only [List.length_append, List.length_cons, List.length_nil] at hlen
  omega

theorem pathBasename_stored (dir : String) (ts rand : Nat) (orig : String)
    (ho : '/' ∉ orig.data) :
    pathBasename (storedFilePath dir ts rand orig) = multerFilename ts rand orig := by
  unfold pathBasename storedFilePath
  have hdata : (dir ++ "/" ++ multerFilename ts rand orig).data
      = dir.data ++ '/' :: (multerFilename ts rand orig).data := by
    rw [string_data_append, string_data_append]
    have hslash : ("/" : String).data = ['/'] := by decide
    rw [hslash, List.append_assoc]
    rfl
  rw [hdata, splitCh_append_sep,
    splitCh_no_sep '/' _ (no_slash_multerFilename ts rand orig ho)]
  rw [getLastD_append_cons]
  rfl

/-- C10: every vector built during ingestion carries in its metadata the
basename of the STORED file path — the multer name with the
timestamp-random prefix — while the document record's `fileName` field holds
the original uploaded name; the two always differ. -/
theorem metadata_filename_is_stored_basename (ts rand : Nat) (dir orig : String)
    (t : ChatbotType) (size : Nat) (desc : Option String) (docId now : String)
    (chunks : List TextChunk) (embeddings : List (List Int))
    (ho : '/' ∉ orig.data) :
    (∀ v ∈ buildVectors docId (storedFilePath dir ts rand orig) t now chunks embeddings,
      v.metadata.fileName = pathBasename (storedFilePath dir ts rand orig))
    ∧ pathBasename (storedFilePath dir ts rand orig) = multerFilename ts rand orig
    ∧ (uploadDoc t orig (storedFilePath dir ts rand orig) size desc).fileName = orig
    ∧ multerFilename ts rand orig ≠ orig := by
  refine ⟨?_, pathBasename_stored dir ts rand orig ho, rfl,
    multerFilename_ne_orig ts rand orig⟩
  intro v hv
  rcases List.mem_map.mp hv with ⟨p, hp, hvp⟩
  rw [← hvp]

/-- Witness for `metadata_filename_is_stored_basename` at concrete values. -/
theorem metadata_filename_is_stored_basename_witness :
    ('/' ∉ ("a.pdf" : String).data)
    ∧ pathBasename (storedFilePath "uploads" 17 9 "a.pdf") = multerFilename 17 9 "a.pdf"
    ∧ multerFilename 17 9 "a.pdf" ≠ "a.pdf" :=
  ⟨by decide,
    (metadata_filename_is_stored_basename 17 9 "uploads" "a.pdf" .general 1 none
      "d1" "T" [] [] (by decide)).2.1,
    (metadata_filename_is_stored_basename 17 9 "uploads" "a.pdf" .general 1 none
      "d1" "T" [] [] (by decide)).2.2.2⟩

/-! ## Claim C6 — deterministic vector ids and idempotent re-ingestion -/

/-- The namespace `ns` of the store holds a record with id `i`. -/
def HasId (s : VStore) (ns i : String) : Prop :=
  ∃ r ∈ s, r.nspace = ns ∧ r.id = i

theorem any_eq_hasId (s : VStore) (ns i : String) :
    s.any (fun r => r.nspace = ns && r.id = i) = true ↔ HasId s ns i := by
  rw [List.any_eq_true]
  unfold HasId
  constructor
  · rintro ⟨r, hr, hcond⟩
    simp only [Bool.and_eq_true, decide_eq_true_eq] at hcond
    exact ⟨r, hr, hcond⟩
  · rintro ⟨r, hr, hcond⟩
    refine ⟨r, hr, ?_⟩
    simp only [Bool.and_eq_true, decide_eq_true_eq]
    exact hcond

theorem upsertRec_HasId (s : VStore) (ns : String) (v : PineVector)
    (ns' i : String) :
    HasId (upsertRec s ns v) ns' i ↔ HasId s ns' i ∨ (ns' = ns ∧ i = v.id) := by
  unfold upsertRec
  by_cases hg : s.any (fun r => r.nspace = ns && r.id = v.id) = true
  · rw [if_pos hg]
    have hex := (any_eq_hasId s ns v.id).mp hg
    constructor
    · rintro ⟨r, hr, hcond⟩
      rcases List.mem_map.mp hr with ⟨r0, hr0, hrr⟩
      by_cases hm : (r0.nspace = ns && r0.id = v.id) = true
      · simp only [Bool.and_eq_true, decide_eq_true_eq] at hm
        rw [if_pos (by simp [hm.1, hm.2])] at hrr
        rw [← hrr] at hcond
        exact Or.inr ⟨hcond.1.symm, hcond.2.symm⟩
      · rw [if_neg hm] at hrr
        exact Or.inl ⟨r0, hr0, hrr ▸ hcond⟩
    · intro h
      rcases h with ⟨r, hr, hcond⟩ | ⟨hns, hi⟩
      · by_cases hm : r.nspace = ns ∧ r.id = v.id
        · rcases hex with ⟨r2, hr2, hcond2⟩
          refine ⟨⟨ns, v.id, v.values, v.metadata⟩, ?_, ?_⟩
          · exact List.mem_map.mpr ⟨r, hr, by rw [if_pos (by simp [hm.1, hm.2])]⟩
          · exact ⟨by rw [← hcond.1, hm.1], by rw [← hcond.2, hm.2]⟩
        · refine ⟨r, ?_, hcond⟩
          refine List.mem_map.mpr ⟨r, hr, ?_⟩
          rw [if_neg (by simpa using hm)]
      · rcases hex with ⟨r2, hr2, hcond2⟩
        refine ⟨⟨ns, v.id, v.values, v.metadata⟩, ?_, by simp [hns, hi]⟩
        exact List.mem_map.mpr ⟨r2, hr2, by rw [if_pos (by simp [hcond2.1, hcond2.2])]⟩
  · rw [if_neg hg]
    constructor
    · rintro ⟨r, hr, hcond⟩
      rcases List.mem_append.mp hr with h | h
      · exact Or.inl ⟨r, h, hcond⟩
      · simp only [List.mem_singleton] at h
        subst h
        exact Or.inr ⟨hcond.1.symm, hcond.2.symm⟩
    · intro h
      rcases h with ⟨r, hr, hcond⟩ | ⟨hns, hi⟩
      · exact ⟨r, List.mem_append_left _ hr, hcond⟩
      · exact ⟨⟨ns, v.id, v.values, v.metadata⟩,
          List.mem_append_right _ (by simp), by simp [hns, hi]⟩

theorem upsertRec_length_of_HasId (s : VStore) (ns : String) (v : PineVector)
    (h : HasId s ns v.id) : (upsertRec s ns v).length = s.length := by
  unfold upsertRec
  rw [if_pos ((any_eq_hasId s ns v.id).mpr h)]
  exact List.length_map _ _

theorem foldl_upsert_HasId (ns : String) (vs : List PineVector) :
    ∀ (s : VStore) (ns' i : String),
      HasId (vs.foldl (fun s v => upsertRec s ns v) s) ns' i
        ↔ HasId s ns' i ∨ (ns' = ns ∧ i ∈ vs.map (fun v => v.id)) := by
  induction vs with
  | nil => intro s ns' i; simp
  | cons v rest ih =>
    intro s ns' i
    rw [List.foldl_cons, ih, upsertRec_HasId]
    simp only [List.map_cons, List.mem_cons]
    constructor
    · rintro ((h | ⟨hns, hi⟩) | ⟨hns, hi⟩)
      · exact Or.inl h
      · exact Or.inr ⟨hns, Or.inl hi⟩
      · exact Or.inr ⟨hns, Or.inr hi⟩
    · rintro (h | ⟨hns, hi | hi⟩)
      · exact Or.inl (Or.inl h)
      · exact Or.inl (Or.inr ⟨hns, hi⟩)
      · exact Or.inr ⟨hns, hi⟩

theorem foldl_upsert_length (ns : String) (vs : List PineVector) :
    ∀ (s : VStore), (∀ v ∈ vs, HasId s ns v.id) →
      (vs.foldl (fun s v => upsertRec s ns v) s).length = s.length := by
  induction vs with
  | nil => intro s _; rfl
  | cons v rest ih =>
    intro s hall
    rw [List.foldl_cons]
    rw [ih (upsertRec s ns v) ?hrest]
    · exact upsertRec_length_of_HasId s ns v (hall v (by simp))
    case hrest =>
      intro v' hv'
      rw [upsertRec_HasId]
      exact Or.inl (hall v' (List.mem_cons_of_mem v hv'))

theorem upsertVectors_eq_foldl (s : VStore) (ns : String) (vs : List PineVector) :
    upsertVectors s ns vs = vs.foldl (fun s v => upsertRec s ns v) s := by
  unfold upsertVectors upsertBatch
  have hflat : (batchesOf 100 vs).flatten = vs := batchGo_join 100 (by omega) _ _ le_rfl
  conv_rhs => rw [← hflat]
  generalize batchesOf 100 vs = batches
  induction batches generalizing s with
  | nil => rfl
  | cons b rest ih =>
    rw [List.foldl_cons, List.flatten_cons, List.foldl_append]
    exact ih _

/-- C6: vector ids are exactly `documentId ++ "-chunk-" ++ index` computed
from each chunk's own index, independent of embeddings and metadata inputs
(so re-ingesting the same document id with identical chunks yields the
identical id list), and upserting a vector list whose ids are already present
overwrites: re-running `upsertVectors` with the same vectors changes neither
the store size nor the id set of the namespace. -/
theorem ingestion_ids_idempotent (d fp fp' : String) (t t' : ChatbotType)
    (now now' : String) (cs : List TextChunk) (e e' : List (List Int))
    (s : VStore) (ns : String) (vs : List PineVector) :
    (buildVectors d fp t now cs e).map (fun v => v.id)
        = cs.map (fun c => d ++ "-chunk-" ++ toString c.index)
    ∧ (buildVectors d fp t now cs e).map (fun v => v.id)
        = (buildVectors d fp' t' now' cs e').map (fun v => v.id)
    ∧ (∀ i, HasId (upsertVectors s ns vs) ns i
        ↔ HasId s ns i ∨ i ∈ vs.map (fun v => v.id))
    ∧ (upsertVectors (upsertVectors s ns vs) ns vs).length
        = (upsertVectors s ns vs).length
    ∧ (∀ i, HasId (upsertVectors (upsertVectors s ns vs) ns vs) ns i
        ↔ HasId (upsertVectors s ns vs) ns i) := by
  have hids : ∀ (fp0 : String) (t0 : ChatbotType) (now0 : String)
      (e0 : List (List Int)),
      (buildVectors d fp0 t0 now0 cs e0).map (fun v => v.id)
        = cs.map (fun c => d ++ "-chunk-" ++ toString c.index) := by
    intro fp0 t0 now0 e0
    unfold buildVectors
    rw [List.map_map]
    have : (fun p : Nat × TextChunk => d ++ "-chunk-" ++ toString p.2.index)
        = (fun c : TextChunk => d ++ "-chunk-" ++ toString c.index) ∘ Prod.snd := rfl
    calc cs.enum.map _ = cs.enum.map
          ((fun c : TextChunk => d ++ "-chunk-" ++ toString c.index) ∘ Prod.snd) := rfl
      _ = (cs.enum.map Prod.snd).map
          (fun c : TextChunk => d ++ "-chunk-" ++ toString c.index) := by
          rw [List.map_map]
      _ = cs.map (fun c : TextChunk => d ++ "-chunk-" ++ toString c.index) := by
          rw [List.enum_map_snd]
  have hHas : ∀ i, HasId (upsertVectors s ns vs) ns i
      ↔ HasId s ns i ∨ i ∈ vs.map (fun v => v.id) := by
    intro i
    rw [upsertVectors_eq_foldl, foldl_upsert_HasId]
    constructor
    · rintro (h | ⟨_, hi⟩)
      · exact Or.inl h
      · exact Or.inr hi
    · rintro (h | hi)
      · exact Or.inl h
      · exact Or.inr ⟨rfl, hi⟩
  refine ⟨hids fp t now e, by rw [hids, hids], hHas, ?_, ?_⟩
  · rw [upsertVectors_eq_foldl (upsertVectors s ns vs) ns vs]
    refine foldl_upsert_length ns vs _ ?_
    intro v hv
    exact (hHas v.id).mpr (Or.inr (List.mem_map.mpr ⟨v, hv, rfl⟩))
  · intro i
    rw [upsertVectors_eq_foldl (upsertVectors s ns vs) ns vs, foldl_upsert_HasId]
    constructor
    · rintro (h | ⟨_, hi⟩)
      · exact h
      · exact (hHas i).mpr (Or.inr hi)
    · exact fun h => Or.inl h

/-! ## Claim C8 — batching bounds for embeddings (2048) and upserts (100) -/

/-- C8: embedding generation partitions the inputs into consecutive batches of
at most 2048 that cover every input exactly once; given a per-input provider
it returns exactly one embedding per input in input order (the zipped
correspondence respects the batch structure, and a pointwise provider yields
exactly the pointwise map); upserting partitions the vectors into consecutive
batches of at most 100 covering every vector exactly once, and folding the
batches equals upserting each vector once in order. -/
theorem batching_bounds (texts : List String) (emb : String → List Int)
    (api : List String → List (List Int))
    (hapi : ∀ b, (api b).length = b.length)
    (s : VStore) (ns : String) (vs : List PineVector) :
    (∀ b ∈ batchesOf 2048 texts, b.length ≤ 2048)
    ∧ (batchesOf 2048 texts).flatten = texts
    ∧ (generateEmbeddings texts api).length = texts.length
    ∧ texts.zip (generateEmbeddings texts api)
        = ((batchesOf 2048 texts).map (fun b => b.zip (api b))).flatten
    ∧ generateEmbeddings texts (fun b => b.map emb) = texts.map emb
    ∧ (∀ b ∈ batchesOf 100 vs, b.length ≤ 100)
    ∧ (batchesOf 100 vs).flatten = vs
    ∧ upsertVectors s ns vs = vs.foldl (fun s v => upsertRec s ns v) s := by
  have hflatT : (batchesOf 2048 texts).flatten = texts :=
    batchGo_join 2048 (by omega) texts.length texts le_rfl
  refine ⟨batchGo_mem_length 2048 texts.length texts, hflatT, ?_, ?_, ?_,
    batchGo_mem_length 100 vs.length vs,
    batchGo_join 100 (by omega) vs.length vs le_rfl,
    upsertVectors_eq_foldl s ns vs⟩
  · have h1 : (batchesOf 2048 texts).map (List.length ∘ api)
        = (batchesOf 2048 texts).map List.length :=
      List.map_congr_left (fun b _ => hapi b)
    calc (generateEmbeddings texts api).length
        = ((batchesOf 2048 texts).map (List.length ∘ api)).sum := by
          unfold generateEmbeddings
          rw [List.length_flatten, List.map_map]
      _ = ((batchesOf 2048 texts).map List.length).sum := congrArg List.sum h1
      _ = (batchesOf 2048 texts).flatten.length := (List.length_flatten _).symm
      _ = texts.length := by rw [hflatT]
  · exact batchGo_zip 2048 (by omega) api hapi texts.length texts le_rfl
  · have hmap : (fun b : List String => b.map emb) = List.map emb := rfl
    unfold generateEmbeddings
    rw [hmap, ← List.map_flatten, hflatT]

def apiC8 : List String → List (List Int) := fun b => b.map (fun _ => [0])

theorem batching_bounds_witness :
    (∀ b ∈ batchesOf 2048 ["a", "bb"], b.length ≤ 2048)
    ∧ (batchesOf 2048 ["a", "bb"]).flatten = ["a", "bb"]
    ∧ (generateEmbeddings ["a", "bb"] apiC8).length = (["a", "bb"] : List String).length
    ∧ (["a", "bb"] : List String).zip (generateEmbeddings ["a", "bb"] apiC8)
        = ((batchesOf 2048 ["a", "bb"]).map (fun b => b.zip (apiC8 b))).flatten
    ∧ generateEmbeddings ["a", "bb"] (fun b => b.map (fun _ => ([0] : List Int)))
        = (["a", "bb"] : List String).map (fun _ => ([0] : List Int))
    ∧ (∀ b ∈ batchesOf 100 ([] : List PineVector), b.length ≤ 100)
    ∧ (batchesOf 100 ([] : List PineVector)).flatten = []
    ∧ upsertVectors [] "n" [] = ([] : List PineVector).foldl (fun s v => upsertRec s "n" v) [] :=
  batching_bounds ["a", "bb"] (fun _ => [0]) apiC8
    (fun b => List.length_map b _) [] "n" []

/-! ## Claim C3 — no completed document: simple path, no vector query -/

/-- C3: when no document of the requested chatbot type has status `completed`,
a valid chat request is answered by the simple (ungrounded) path: the response
is `ok` with `hasKnowledgeBase = false`, `sources = []`, the answer composed
by `generateSimpleResponse`, and no vector-index query effect is ever
emitted. -/
theorem no_kb_no_vector_query (env : ChatEnv) (db : List KBDoc)
    (convs : List Conversation) (req : ChatRequest)
    (hmsg : (trimChars req.message.data).length ≠ 0)
    (hty : req.chatbotType ∈ validChatbotTypes)
    (hkb : ∀ d ∈ db, ¬ (ctString d.chatbotType = req.chatbotType
        ∧ d.status = ProcessingStatus.completed)) :
    (handleChatQuery env db convs req).1.1
      = ChatResponse.ok
          (generateSimpleResponse env req.message (ctOfString req.chatbotType)).1
          [] false env.now
    ∧ ∀ e ∈ (handleChatQuery env db convs req).2, e.isVec = false := by
  have hkb' : db.any (fun d =>
      ctString d.chatbotType = req.chatbotType
        && d.status = ProcessingStatus.completed) = false := by
    rw [List.any_eq_false]
    intro d hd
    simp only [Bool.and_eq_true, decide_eq_true_eq]
    exact fun h => hkb d hd h
  unfold handleChatQuery
  rw [if_neg hmsg, if_neg (not_not_intro hty)]
  dsimp only
  rw [hkb']
  rw [if_neg (by simp : ¬ (false : Bool) = true)]
  dsimp only
  constructor
  · rfl
  · intro e he
    rcases List.mem_append.mp he with h | h
    · unfold generateSimpleResponse at h
      simp only [List.mem_singleton] at h
      subst h
      rfl
    · cases hs : req.sessionId with
      | none =>
        rw [hs] at h
        simp at h
      | some sid =>
        rw [hs] at h
        dsimp only at h
        cases hsv : saveConversation convs env.persistOk env.now sid
            (ctOfString req.chatbotType) req.message
            (generateSimpleResponse env req.message (ctOfString req.chatbotType)).1
            [] with
        | ok cs =>
          rw [hsv] at h
          dsimp only at h
          simp only [List.mem_singleton] at h
          subst h
          rfl
        | error m =>
          rw [hsv] at h
          dsimp only at h
          simp only [List.mem_singleton] at h
          subst h
          rfl

def envC3 : ChatEnv := ⟨fun _ => [], fun _ _ _ => [], fun _ => "resp", true, "t0"⟩

def reqC3 : ChatRequest := ⟨"Hi", "menopause", none, none⟩

theorem no_kb_no_vector_query_witness :
    (handleChatQuery envC3 [] [] reqC3).1.1
      = ChatResponse.ok
          (generateSimpleResponse envC3 "Hi" (ctOfString "menopause")).1
          [] false "t0"
    ∧ ∀ e ∈ (handleChatQuery envC3 [] [] reqC3).2, e.isVec = false :=
  no_kb_no_vector_query envC3 [] [] reqC3 (by decide) (by decide) (by simp)

/-! ## Claim C9 — persistence failure is swallowed -/

/-- C9: for a valid chat request carrying a session id, a failing conversation
store (persistOk = false) yields exactly the same successful `ok` response as
a working one, leaves the stored conversations unchanged, and records only a
failed persistence attempt — persistence failure never fails the answer
flow. -/
theorem persistence_failure_swallowed (env : ChatEnv) (db : List KBDoc)
    (convs : List Conversation) (req : ChatRequest) (sid : String)
    (hmsg : (trimChars req.message.data).length ≠ 0)
    (hty : req.chatbotType ∈ validChatbotTypes)
    (hsid : req.sessionId = some sid) :
    (handleChatQuery { env with persistOk := false } db convs req).1.1
      = (handleChatQuery { env with persistOk := true } db convs req).1.1
    ∧ (∃ r s k, (handleChatQuery { env with persistOk := false } db convs req).1.1
        = ChatResponse.ok r s k env.now)
    ∧ (handleChatQuery { env with persistOk := false } db convs req).1.2 = convs
    ∧ ChatEff.persistTry false
        ∈ (handleChatQuery { env with persistOk := false } db convs req).2 := by
  have hragE : generateRAGResponse { env with persistOk := false } req.message
      (ctOfString req.chatbotType) req.conversationHistory
      = generateRAGResponse { env with persistOk := true } req.message
      (ctOfString req.chatbotType) req.conversationHistory := rfl
  have hsimpE : generateSimpleResponse { env with persistOk := false } req.message
      (ctOfString req.chatbotType)
      = generateSimpleResponse { env with persistOk := true } req.message
      (ctOfString req.chatbotType) := rfl
  unfold handleChatQuery
  rw [if_neg hmsg, if_neg (not_not_intro hty), if_neg hmsg,
    if_neg (not_not_intro hty)]
  dsimp only
  rw [hsid]
  unfold saveConversation
  dsimp only
  rw [if_neg (by simp : ¬ (false : Bool) = true)]
  dsimp only
  rw [hragE, hsimpE]
  refine ⟨rfl, ⟨_, _, _, rfl⟩, rfl, ?_⟩
  exact List.mem_append_right _ (List.mem_singleton.mpr rfl)

def envC9 : ChatEnv := ⟨fun _ => [], fun _ _ _ => [], fun _ => "resp", true, "t1"⟩

def reqC9 : ChatRequest := ⟨"Hello", "general", some "s1", none⟩

theorem persistence_failure_swallowed_witness :
    (handleChatQuery { envC9 with persistOk := false } [] [] reqC9).1.1
      = (handleChatQuery { envC9 with persistOk := true } [] [] reqC9).1.1
    ∧ (∃ r s k, (handleChatQuery { envC9 with persistOk := false } [] [] reqC9).1.1
        = ChatResponse.ok r s k "t1")
    ∧ (handleChatQuery { envC9 with persistOk := false } [] [] reqC9).1.2 = []
    ∧ ChatEff.persistTry false
        ∈ (handleChatQuery { envC9 with persistOk := false } [] [] reqC9).2 :=
  persistence_failure_swallowed envC9 [] [] reqC9 "s1" (by decide) (by decide) rfl
